import Mathlib

/-!
# The job execution engine of `act` (`pkg/runner/run_context.go`)

A shallow embedding of the run context of the runner package, followed by the
properties of it that the specification states.

Conventions of the embedding.

* A Go `string` is a Lean `String`.  The only place where the source indexes a
  string by bytes (`trimToLen`) is reached with text that the regular
  expression replacement has already made pure ASCII, where byte positions and
  character positions coincide.
* A Go `map[string]T` is an `AList`: a list of entries whose keys are pairwise
  distinct.  A `range` loop over a map visits the entries in the order of the
  list; since every permutation of the entries is again an `AList`, a
  statement proved for every `AList` holds for every traversal order.
  `m[k] = v` is `AList.insert`, the two-valued read `v, ok := m[k]` is
  `AList.lookup`.
* A method with a pointer receiver that the claims follow through time is a
  function from the run context to a result and the run context afterwards.
* Code of other packages (the pipeline combinators of `pkg/common`, the
  container driver, git discovery, the expression evaluator, the workflow
  model) is not part of this file's source; it enters through `Deps` or is
  modelled from the specification where noted.
* The run context carries a ghost `trace`: every stage of the job pipeline
  and every container operation appends one event when it starts.
-/

namespace Runner

/-! ## Values shared by the whole model -/

/-- A Go `map[string]string`. -/
abbrev StrMap := AList (fun _ : String => String)

/-- Reading `m[k]` in the one-valued form: the zero value `""` when absent. -/
def StrMap.at (m : StrMap) (k : String) : String :=
  (m.lookup k).getD ""

/-- What an executor can end with besides success: an `error` value that is
returned to the caller, or a run-time panic. -/
inductive Err where
  | error (msg : String)
  | panic (msg : String)
  deriving DecidableEq, Repr

/-- A decoded `interface{}` of `encoding/json`: `null` is the nil interface,
`obj` is a `map[string]interface{}` read by first match. -/
inductive JValue where
  | null
  | bool (b : Bool)
  | num (text : String)
  | str (s : String)
  | arr (items : List JValue)
  | obj (fields : List (String × JValue))

/-- A Go `map[string]interface{}`. -/
abbrev JMap := List (String × JValue)

/-! ## The workflow model (`pkg/model`), as far as the run context reads it -/

/-- The step types of `model.StepType`. -/
inductive StepType where
  | StepTypeRun
  | StepTypeUsesDockerURL
  | StepTypeUsesActionLocal
  | StepTypeUsesActionRemote
  deriving DecidableEq, Repr

/-- A `model.Step`. -/
structure Step where
  ID : String
  If : String
  Name : String
  Uses : String
  Run : String
  With : StrMap
  Env : StrMap

/-- A `model.ContainerSpec`. -/
structure ContainerSpec where
  Image : String
  Env : StrMap

/-- A `model.Job`; `RunsOn` and `Container` are the decoded values that the
methods of the same names return (`Container = none` is the nil pointer). -/
structure Job where
  Name : String
  If : String
  Env : StrMap
  Steps : List Step
  RunsOn : List String
  Container : Option ContainerSpec

/-- A `model.Workflow`. -/
structure Workflow where
  Name : String
  Env : StrMap

/-- A `model.Run`: the workflow and the job that `Run.Job()` resolves to. -/
structure Run where
  Workflow : Workflow
  Job : Job

/-- The runner `Config`, the fields the run context reads. -/
structure Config where
  Workdir : String
  BindWorkdir : Bool
  EventName : String
  Actor : String
  ForcePull : Bool
  LogOutput : Bool
  ReuseContainers : Bool
  Env : StrMap
  Secrets : StrMap
  Platforms : StrMap

/-- The `ExpressionEvaluator` capability. -/
structure ExpressionEvaluator where
  Evaluate : String → Except String String
  Interpolate : String → String

/-- One call made on an expression evaluator. -/
inductive EvalCall where
  | Interpolate (input : String)
  | Evaluate (input : String)
  deriving DecidableEq, Repr

/-! ## Containers and the ghost trace -/

/-- A `container.FileEntry`. -/
structure FileEntry where
  Name : String
  Mode : Nat
  Body : String
  deriving DecidableEq, Repr

/-- The operations of the container contract that the run context uses. -/
inductive ContainerOp where
  | Pull (force : Bool)
  | Remove
  | Create
  | Start (attach : Bool)
  | CopyDir (dest src : String) (useCache : Bool)
  | ChangeRemoteToHttps (path : String)
  | Copy (destDir : String) (files : List FileEntry)
  | Exec (cmd : List String) (env : StrMap)
  deriving DecidableEq

/-- What is recorded in the ghost trace: the start of a pipeline stage, the
call of a step's action, or an operation on a container or a volume. -/
inductive Event where
  | matrixStage
  | dindStage
  | jobStage
  | stepStage (id : String)
  | stepAction (id : String)
  | teardownStage
  | dind (op : ContainerOp)
  | job (op : ContainerOp)
  | volumeRemove (name : String) (force : Bool)
  deriving DecidableEq

/-- The part of `container.NewContainerInput` that identifies a container. -/
structure ContainerInput where
  Image : String
  Name : String
  Entrypoint : List String
  WorkingDir : String
  Env : List String
  Mounts : List (String × String)
  NetworkMode : String
  Links : List String
  Binds : List String
  Privileged : Bool
  deriving DecidableEq

/-- The `stepResult` of the source. -/
structure stepResult where
  Success : Bool
  Outputs : StrMap
  deriving DecidableEq

/-- The `RunContext` of the source, with the ghost `trace`. -/
structure RunContext where
  Name : String
  Config : Config
  Matrix : JMap
  Run : Run
  EventJSON : String
  Env : Option StrMap
  ExtraPath : List String
  CurrentStep : String
  StepResults : AList (fun _ : String => stepResult)
  ExprEval : ExpressionEvaluator
  JobContainer : Option ContainerInput
  DINDContainer : Option ContainerInput
  trace : List Event

/-- What a step's action (`sc.Executor()`, another file) leaves behind: the
outputs it recorded for the current step, the environment overlay and extra
path after its workflow commands, and its error. -/
structure StepOutcome where
  Outputs : StrMap
  Env : Option StrMap
  ExtraPath : List String
  err : Option Err

/-- The collaborators outside `run_context.go`. -/
structure Deps where
  /-- The value of `runtime.GOOS`. -/
  GOOS : String
  /-- The function `os.Getenv`. -/
  Getenv : String → String
  /-- The function `strings.ToLower`. -/
  ToLower : String → String
  /-- The function `filepath.Join`, of two elements. -/
  filepathJoin : String → String → String
  /-- The function `common.FindGithubRepo`. -/
  FindGithubRepo : String → Except String String
  /-- The function `common.FindGitRevision`. -/
  FindGitRevision : String → Except String (String × String)
  /-- The function `common.FindGitRef`. -/
  FindGitRef : String → Except String String
  /-- The function `json.Unmarshal` into a `map[string]interface{}`: the map afterwards
  and the error. -/
  jsonUnmarshal : String → JMap → JMap × Option String
  /-- The method `model.Step.Type`. -/
  stepType : Step → StepType
  /-- The test `newRemoteAction(uses).IsCheckout()`. -/
  remoteIsCheckout : String → Bool
  /-- The executor `sc.setupEnv()`: the environment overlay of the run context after it. -/
  setupEnv : Step → RunContext → Option StrMap
  /-- The constructor `sc.NewExpressionEvaluator()`. -/
  NewExpressionEvaluator : Step → RunContext → ExpressionEvaluator
  /-- The executor `sc.Executor()`, the effective action of a step. -/
  stepExecutor : Step → RunContext → StepOutcome
  /-- The container driver: the error, if any, of an operation given the
  operations so far. -/
  engine : List Event → Event → Option Err

/-! ## `pkg/common`: the action pipeline -/

namespace common

/-- A `common.Executor`: deferred work on the run context.  The cancellable
`context.Context` is not modelled. -/
abbrev Executor := RunContext → RunContext × Option Err

/-- Modelled from the spec: `common.NewPipelineExecutor`, of the package
`pkg/common`.  Sequence: run the units in order; abort and propagate
immediately on the first failure, the remaining units do not run. -/
def NewPipelineExecutor : List Executor → Executor
  | [] => fun rc => (rc, none)
  | e :: rest => fun rc =>
    match e rc with
    | (rc1, none) => NewPipelineExecutor rest rc1
    | (rc1, some err) => (rc1, some err)

/-- Modelled from the spec: `Executor.Then`.  Run unit A; if A succeeds, run
unit B; the result of B becomes the result. -/
def Executor.Then (a b : Executor) : Executor := fun rc =>
  match a rc with
  | (rc1, none) => b rc1
  | (rc1, some err) => (rc1, some err)

/-- Modelled from the spec: `Executor.If`.  The unit only executes when the
predicate holds; when it is false the unit is skipped and reports success. -/
def Executor.If (e : Executor) (conditional : RunContext → Bool) : Executor := fun rc =>
  if conditional rc then e rc else (rc, none)

/-- Modelled from the spec: `Executor.IfBool`, the gate on a precomputed
boolean. -/
def Executor.IfBool (e : Executor) (conditional : Bool) : Executor :=
  Executor.If e (fun _ => conditional)

end common

/-! ## Naming -/

/-- The character class `[a-zA-Z0-9]`. -/
def isAlnum (c : Char) : Bool :=
  ('a' ≤ c && c ≤ 'z') || ('A' ≤ c && c ≤ 'Z') || ('0' ≤ c && c ≤ '9')

/-- The call `pattern.ReplaceAllString(part, "-")` for the pattern
`[^a-zA-Z0-9]`: every character outside the class becomes `-`. -/
def replaceNonAlnum (part : String) : String :=
  ⟨part.data.map fun c => if isAlnum c then c else '-'⟩

/-- The `trimToLen` of the source. -/
def trimToLen (s : String) (l : Int) : String :=
  let l := if l < 0 then 0 else l
  if (s.length : Int) > l then ⟨s.data.take l.toNat⟩ else s

/-- The call `strings.Trim(s, cutset)` for a cutset of one character. -/
def stringsTrim (s : String) (cut : Char) : String :=
  ⟨((s.data.dropWhile (· == cut)).reverse.dropWhile (· == cut)).reverse⟩

/-- The call `strings.Join(elems, sep)`. -/
def stringsJoin (elems : List String) (sep : String) : String :=
  ⟨List.intercalate sep.data (elems.map String.data)⟩

/-- The loop of `createContainerName`: the slice `name` built from the parts
from position `i` on, for `n = len(parts)`. -/
def nameParts (n : Nat) (partLen : Int) : Nat → List String → List String
  | _, [] => []
  | i, part :: rest =>
    (if i = n - 1 then replaceNonAlnum part
     else trimToLen (replaceNonAlnum part) partLen)
      :: nameParts n partLen (i + 1) rest

/-- The `createContainerName` of the source.  With no parts the integer
division `30 / len(parts)` panics: `none`. -/
def createContainerName (parts : List String) : Option String :=
  if parts.length = 0 then none
  else
    let partLen : Int := (30 / (parts.length : Int)) - 1
    some (stringsTrim (stringsJoin (nameParts parts.length partLen 0 parts) "-") '-')

/-- The method `String` of `RunContext` (the name `String` is taken in Lean):
`fmt.Sprintf("%s/%s", rc.Run.Workflow.Name, rc.Name)`. -/
def RunContext.toString (rc : RunContext) : String :=
  rc.Run.Workflow.Name ++ "/" ++ rc.Name

/-- The method `RunContext.dindContainerName`.  The parts are three, so the
division in `createContainerName` cannot panic. -/
def RunContext.dindContainerName (rc : RunContext) : String :=
  (createContainerName ["act", "dind", rc.toString]).get (by simp [createContainerName])

/-- The method `RunContext.jobContainerName`. -/
def RunContext.jobContainerName (rc : RunContext) : String :=
  (createContainerName ["act", rc.toString]).get (by simp [createContainerName])

/-! ## Expressions -/

/-- The method `RunContext.EvalBool`, together with the calls it makes on the
evaluator, in order. -/
def RunContext.EvalBool (rc : RunContext) (expr : String) : Bool × List EvalCall :=
  if expr ≠ "" then
    let interpolated := rc.ExprEval.Interpolate expr
    let expr1 := "Boolean(" ++ interpolated ++ ")"
    match rc.ExprEval.Evaluate expr1 with
    | .error _ => (false, [.Interpolate expr, .Evaluate expr1])
    | .ok v => (v == "true", [.Interpolate expr, .Evaluate expr1])
  else (true, [])

/-! ## Environment -/

/-- The locals of `mergeMaps`: the argument slice and the map being built. -/
structure MergeFrame where
  maps : List StrMap
  rtnMap : StrMap

/-- The body of `mergeMaps` up to the `return`: for each map in order, for
each entry of it, `rtnMap[k] = v`. -/
def mergeMapsFrame (maps : List StrMap) : MergeFrame :=
  maps.foldl
    (fun frame m =>
      m.entries.foldl
        (fun frame kv => { frame with rtnMap := frame.rtnMap.insert kv.1 kv.2 }) frame)
    { maps := maps, rtnMap := ∅ }

/-- The `mergeMaps` of the source. -/
def mergeMaps (maps : List StrMap) : StrMap :=
  (mergeMapsFrame maps).rtnMap

/-- The method `RunContext.GetEnv`: the returned map and the run context
afterwards (`Env = none` is the nil map). -/
def RunContext.GetEnv (rc : RunContext) : StrMap × RunContext :=
  match rc.Env with
  | none =>
    let env := mergeMaps [rc.Config.Env, rc.Run.Workflow.Env, rc.Run.Job.Env]
    (env, { rc with Env := some env })
  | some env => (env, rc)

/-! ## Context projections -/

/-- The `jobContext` of the source. -/
structure jobContext where
  Status : String
  ContainerID : String
  ContainerNetwork : String
  Services : Option StrMap
  deriving DecidableEq

/-- The loop of `getJobContext` over the step results in traversal order,
with its `break`. -/
def jobStatusLoop : List (Sigma fun _ : String => stepResult) → String → String
  | [], jobStatus => jobStatus
  | stepStatus :: rest, jobStatus =>
    if !stepStatus.2.Success then "failure" else jobStatusLoop rest jobStatus

/-- The method `RunContext.getJobContext`: the projection and the run context
afterwards. -/
def RunContext.getJobContext (rc : RunContext) : jobContext × RunContext :=
  ({ Status := jobStatusLoop rc.StepResults.entries "success",
     ContainerID := "", ContainerNetwork := "", Services := none }, rc)

/-- The `githubContext` of the source. -/
structure githubContext where
  Event : JMap
  EventPath : String
  Workflow : String
  RunID : String
  RunNumber : String
  Actor : String
  Repository : String
  EventName : String
  Sha : String
  Ref : String
  HeadRef : String
  BaseRef : String
  Token : String
  Workspace : String
  Action : String

/-- The `asString` of the source. -/
def asString : JValue → String
  | .null => ""
  | .str s => s
  | _ => ""

/-- The `nestedMapLookup` of the source; the nil result is `JValue.null`.
After the first key is matched off, `ks` is the slice `ks[1:]`, so the test
`len(ks) == 1` of the source reads `ks.length = 0`. -/
def nestedMapLookup (m : JMap) : List String → JValue
  | [] => .null
  | k :: ks =>
    match m.lookup k with
    | none => .null
    | some rval =>
      if ks.length = 0 then rval
      else
        match rval with
        | .obj m1 => nestedMapLookup m1 ks
        | _ => .null

/-- The words of the specification for a nested lookup: `Reaches m ks v` when
`ks` is non-empty, every key is present at its level, every value before the
last is itself a map, and `v` is the value under the last key. -/
inductive Reaches : JMap → List String → JValue → Prop where
  | last (m : JMap) (k : String) (v : JValue) :
      m.lookup k = some v → Reaches m [k] v
  | step (m : JMap) (k : String) (m1 : JMap) (ks : List String) (v : JValue) :
      m.lookup k = some (JValue.obj m1) → ks ≠ [] → Reaches m1 ks v → Reaches m (k :: ks) v

/-- The method `RunContext.getGithubContext`.  Every field is written once,
with the value that the assignments of the source leave in it: the zero value
where a discovery fails, the decoded event where there is event text, the
nested lookups for a `pull_request` event. -/
def RunContext.getGithubContext (deps : Deps) (rc : RunContext) : githubContext :=
  let token :=
    match rc.Config.Secrets.lookup "GITHUB_TOKEN" with
    | some t => t
    | none => deps.Getenv "GITHUB_TOKEN"
  let actor := if rc.Config.Actor = "" then "nektos/act" else rc.Config.Actor
  let repoPath := rc.Config.Workdir
  let repository :=
    match deps.FindGithubRepo repoPath with
    | .error _ => ""
    | .ok repo => repo
  let sha :=
    match deps.FindGitRevision repoPath with
    | .error _ => ""
    | .ok (_, sha) => sha
  let ref :=
    match deps.FindGitRef repoPath with
    | .error _ => ""
    | .ok ref => ref
  let event : JMap :=
    if rc.EventJSON ≠ "" then (deps.jsonUnmarshal rc.EventJSON []).1 else []
  let eventName := rc.Config.EventName
  { Event := event,
    EventPath := "/github/workflow/event.json",
    Workflow := rc.Run.Workflow.Name,
    RunID := "1",
    RunNumber := "1",
    Actor := actor,
    Repository := repository,
    EventName := eventName,
    Sha := sha,
    Ref := ref,
    HeadRef :=
      if eventName = "pull_request" then
        asString (nestedMapLookup event ["pull_request", "head", "ref"])
      else "",
    BaseRef :=
      if eventName = "pull_request" then
        asString (nestedMapLookup event ["pull_request", "base", "ref"])
      else "",
    Token := token,
    Workspace := "/github/workspace",
    Action := rc.CurrentStep }

/-- The method `githubContext.isLocalCheckout`. -/
def githubContext.isLocalCheckout (deps : Deps) (ghc : githubContext) (step : Step) : Bool :=
  if deps.stepType step ≠ StepType.StepTypeUsesActionRemote then false
  else if !deps.remoteIsCheckout step.Uses then false
  else if (match step.With.lookup "repository" with
           | some repository => decide (repository ≠ ghc.Repository)
           | none => false) then false
  else if (match step.With.lookup "ref" with
           | some repository => decide (repository ≠ ghc.Ref)
           | none => false) then false
  else true

/-- The loop of `localCheckoutPath` over the steps of the job. -/
def localCheckoutLoop (deps : Deps) (ghContext : githubContext) : List Step → String × Bool
  | [] => ("", false)
  | step :: rest =>
    if ghContext.isLocalCheckout deps step then (step.With.at "path", true)
    else localCheckoutLoop deps ghContext rest

/-- The method `RunContext.localCheckoutPath`. -/
def RunContext.localCheckoutPath (deps : Deps) (rc : RunContext) : String × Bool :=
  localCheckoutLoop deps (rc.getGithubContext deps) rc.Run.Job.Steps

/-! ## Job assembly -/

/-- The loop of `platformImage` over the run-target labels. -/
def platformImageLoop (deps : Deps) (rc : RunContext) : List String → String
  | [] => ""
  | runnerLabel :: rest =>
    let platformName := rc.ExprEval.Interpolate runnerLabel
    let image := rc.Config.Platforms.at (deps.ToLower platformName)
    if image ≠ "" then image else platformImageLoop deps rc rest

/-- The method `RunContext.platformImage`. -/
def RunContext.platformImage (deps : Deps) (rc : RunContext) : String :=
  match rc.Run.Job.Container with
  | some c => c.Image
  | none => platformImageLoop deps rc rc.Run.Job.RunsOn

/-- The method `RunContext.isEnabled`. -/
def RunContext.isEnabled (deps : Deps) (rc : RunContext) : Bool :=
  if !(rc.EvalBool rc.Run.Job.If).1 then false
  else
    let img := rc.platformImage deps
    if img = "" then false else true

/-- Ghost: append an event to the trace. -/
def RunContext.record (rc : RunContext) (ev : Event) : RunContext :=
  { rc with trace := rc.trace ++ [ev] }

/-- An operation of the container contract as a pipeline unit: it is
recorded, and the driver decides whether it fails. -/
def containerOp (deps : Deps) (ev : Event) : common.Executor := fun rc =>
  (rc.record ev, deps.engine rc.trace ev)

/-- The bind list shared by both containers. -/
def workdirBinds (deps : Deps) (rc : RunContext) : List String :=
  let bindModifiers := if deps.GOOS = "darwin" then ":delegated" else ""
  if rc.Config.BindWorkdir then
    [rc.Config.Workdir ++ ":" ++ "/github/workspace" ++ bindModifiers]
  else []

/-- The method `RunContext.startDINDContainer`. -/
def RunContext.startDINDContainer (deps : Deps) : common.Executor := fun rc =>
  let rc := rc.record Event.dindStage
  let image := "docker:dind"
  let name := rc.dindContainerName
  let envList := ["DOCKER_TLS_CERTDIR" ++ "=" ++ "/certs"]
  let binds := workdirBinds deps rc
  let dindCertVolumeName := rc.dindContainerName ++ "-cert"
  let rc :=
    { rc with
      DINDContainer := some
        { Image := image, Name := name, Entrypoint := [], WorkingDir := "",
          Env := envList,
          Mounts :=
            [(dindCertVolumeName, "/certs/client"), (rc.jobContainerName, "/github"),
             ("act-toolcache", "/toolcache"), ("act-actions", "/actions"),
             ("act-runner-home", "/home/runner"),
             ("act-dind-imagecache", "/var/lib/docker/overlay2")],
          NetworkMode := "default", Links := [], Binds := binds, Privileged := true } }
  common.NewPipelineExecutor
    [containerOp deps (Event.dind (ContainerOp.Pull false)),
     common.Executor.IfBool (containerOp deps (Event.dind ContainerOp.Remove))
       (!rc.Config.ReuseContainers),
     containerOp deps (Event.dind ContainerOp.Create),
     containerOp deps (Event.dind (ContainerOp.Start false))] rc

/-- The locals `copyToPath` and `copyWorkspace` of `startJobContainer`: zero
values unless the configuration does not bind the working directory. -/
def RunContext.workspaceCopy (deps : Deps) (rc : RunContext) : String × Bool :=
  if !rc.Config.BindWorkdir then
    let found := rc.localCheckoutPath deps
    (deps.filepathJoin "/github/workspace" found.1, found.2)
  else ("", false)

/-- The method `RunContext.startJobContainer`; `rc0` is the run context when
the executor is built (the image is resolved then), the argument of the
result is the run context when it runs. -/
def RunContext.startJobContainer (deps : Deps) (rc0 : RunContext) : common.Executor :=
  let image := rc0.platformImage deps
  fun rc =>
    let rc := rc.record Event.jobStage
    let name := rc.jobContainerName
    let envList :=
      ["RUNNER_TOOL_CACHE" ++ "=" ++ "/opt/hostedtoolcache",
       "RUNNER_OS" ++ "=" ++ "Linux",
       "RUNNER_TEMP" ++ "=" ++ "/tmp",
       "DOCKER_TLS_VERIFY" ++ "=" ++ "1",
       "DOCKER_CERT_PATH" ++ "=" ++ "/certs/client",
       "DOCKER_HOST" ++ "=" ++ "tcp://docker:2376"]
    let binds := workdirBinds deps rc
    let dindCertVolumeName := rc.dindContainerName ++ "-cert"
    let rc :=
      { rc with
        JobContainer := some
          { Image := image, Name := name,
            Entrypoint := ["/usr/bin/tail", "-f", "/dev/null"],
            WorkingDir := "/github/workspace", Env := envList,
            Mounts :=
              [(dindCertVolumeName, "/certs/client"), (name, "/github"),
               ("act-toolcache", "/toolcache"), ("act-actions", "/actions"),
               ("act-runner-home", "/home/runner")],
            NetworkMode := "default",
            Links :=
              [rc.dindContainerName ++ ":docker",
               rc.dindContainerName ++ ":deps.localdev.boreas.cloud"],
            Binds := binds, Privileged := false } }
    let copyToPath := (rc.workspaceCopy deps).1
    let copyWorkspace := (rc.workspaceCopy deps).2
    common.NewPipelineExecutor
      [containerOp deps (Event.job (ContainerOp.Pull rc.Config.ForcePull)),
       common.Executor.IfBool (containerOp deps (Event.job ContainerOp.Remove))
         (!rc.Config.ReuseContainers),
       containerOp deps (Event.job ContainerOp.Create),
       containerOp deps (Event.job (ContainerOp.Start false)),
       common.Executor.IfBool
         (containerOp deps
           (Event.job (ContainerOp.CopyDir copyToPath (rc.Config.Workdir ++ "/.") false)))
         copyWorkspace,
       common.Executor.IfBool
         (containerOp deps (Event.job (ContainerOp.ChangeRemoteToHttps copyToPath)))
         copyWorkspace,
       containerOp deps
         (Event.job (ContainerOp.Copy "/github/"
           [{ Name := "workflow/event.json", Mode := 0o644, Body := rc.EventJSON },
            { Name := "home/.act", Mode := 0o644, Body := "" }]))] rc

/-- Whether the driver fails none of the operations `ops`, made one after the
other starting from the trace `t`. -/
def driverAccepts (deps : Deps) : List Event → List Event → Bool
  | _, [] => true
  | t, ev :: rest => (deps.engine t ev).isNone && driverAccepts deps (t ++ [ev]) rest

/-- The operations of the job-container start pipeline that come before the
workspace copy stage: pull, remove unless containers are reused, create,
start. -/
def RunContext.startOps (rc : RunContext) : List Event :=
  [Event.job (ContainerOp.Pull rc.Config.ForcePull)]
  ++ (if rc.Config.ReuseContainers then [] else [Event.job ContainerOp.Remove])
  ++ [Event.job ContainerOp.Create, Event.job (ContainerOp.Start false)]

/-- The stages of the job-container start pipeline in order, each with the
boolean that gates it (`true` for a stage without `IfBool`). -/
def RunContext.jobStartOps (deps : Deps) (rc : RunContext) : List (Bool × Event) :=
  [(true, Event.job (ContainerOp.Pull rc.Config.ForcePull)),
   (!rc.Config.ReuseContainers, Event.job ContainerOp.Remove),
   (true, Event.job ContainerOp.Create),
   (true, Event.job (ContainerOp.Start false)),
   ((rc.workspaceCopy deps).2,
     Event.job (ContainerOp.CopyDir (rc.workspaceCopy deps).1 (rc.Config.Workdir ++ "/.") false)),
   ((rc.workspaceCopy deps).2,
     Event.job (ContainerOp.ChangeRemoteToHttps (rc.workspaceCopy deps).1)),
   (true, Event.job (ContainerOp.Copy "/github/"
      [{ Name := "workflow/event.json", Mode := 0o644, Body := rc.EventJSON },
       { Name := "home/.act", Mode := 0o644, Body := "" }]))]

/-- The method `RunContext.stopJobContainer`.  With a job container but no
sidecar handle, building the chain calls a method on a nil interface. -/
def RunContext.stopJobContainer (deps : Deps) : common.Executor := fun rc =>
  let rc := rc.record Event.teardownStage
  if rc.JobContainer.isSome && !rc.Config.ReuseContainers then
    match rc.DINDContainer with
    | none => (rc, some (Err.panic "nil pointer dereference"))
    | some _ =>
      common.Executor.Then
        (common.Executor.Then (containerOp deps (Event.job ContainerOp.Remove))
          (containerOp deps (Event.dind ContainerOp.Remove)))
        (containerOp deps (Event.volumeRemove rc.jobContainerName false)) rc
  else (rc, none)

/-- The effect of a step's action on the run context: it is recorded, the
overlay and the extra path are what its workflow commands left, and the
outputs of the current step are the ones it set. -/
def RunContext.afterAction (rc : RunContext) (id : String) (out : StepOutcome) : RunContext :=
  let rc := rc.record (Event.stepAction id)
  let rc := { rc with Env := out.Env, ExtraPath := out.ExtraPath }
  match rc.StepResults.lookup rc.CurrentStep with
  | none => rc
  | some r =>
    { rc with
      StepResults := rc.StepResults.insert rc.CurrentStep { r with Outputs := out.Outputs } }

/-- The first statements of the executor that `newStepExecutor` returns, up
to the evaluation of the step's condition: the ghost event `stepStage` marks
the start, the step becomes the current step, its result is registered as
successful with no outputs, the step environment is set up and the
expression evaluator is rebuilt. -/
def RunContext.enterStep (deps : Deps) (step : Step) (rc : RunContext) : RunContext :=
  let rc := rc.record (Event.stepStage step.ID)
  let rc := { rc with CurrentStep := step.ID }
  let rc :=
    { rc with
      StepResults := rc.StepResults.insert rc.CurrentStep { Success := true, Outputs := ∅ } }
  let rc := { rc with Env := deps.setupEnv step rc }
  { rc with ExprEval := deps.NewExpressionEvaluator step rc }

/-- The method `RunContext.newStepExecutor`. -/
def RunContext.newStepExecutor (deps : Deps) (step : Step) : common.Executor := fun rc =>
  let rc := rc.enterStep deps step
  if !(rc.EvalBool step.If).1 then (rc, none)
  else
    let out := deps.stepExecutor step rc
    let rc := rc.afterAction step.ID out
    match out.err with
    | none => (rc, none)
    | some err =>
      match rc.StepResults.lookup rc.CurrentStep with
      | none => (rc, some (Err.panic "nil pointer dereference"))
      | some r =>
        ({ rc with
           StepResults := rc.StepResults.insert rc.CurrentStep { r with Success := false } },
         some err)

/-- The body of the loop of `Executor` for the step at position `i`: a step
without identifier gets its position as identifier (`fmt.Sprintf("%d", i)`). -/
def withStepID (i : Nat) (step : Step) : Step :=
  if step.ID = "" then { step with ID := toString i } else step

/-- The loop of `Executor` over the steps of the job, from position `i` on:
the steps as their executors are built from them. -/
def assignStepIDs : Nat → List Step → List Step
  | _, [] => []
  | i, step :: rest => withStepID i step :: assignStepIDs (i + 1) rest

/-- The stages of the job pipeline, in the order `Executor` appends them. -/
def RunContext.stages (deps : Deps) (rc0 : RunContext) : List common.Executor :=
  [fun rc => (rc.record Event.matrixStage, none),
   RunContext.startDINDContainer deps,
   rc0.startJobContainer deps]
  ++ (assignStepIDs 0 rc0.Run.Job.Steps).map (RunContext.newStepExecutor deps)
  ++ [RunContext.stopJobContainer deps]

/-- The method `RunContext.Executor`: the pipeline executor for all the steps
in the job; `rc0` is the run context when the pipeline is built. -/
def RunContext.Executor (deps : Deps) (rc0 : RunContext) : common.Executor :=
  common.Executor.If (common.NewPipelineExecutor (rc0.stages deps)) (RunContext.isEnabled deps)

/-- The job pipeline cut before the executor of the step at position `k`:
the matrix stage, the two container starts and the executors of the steps
before `k`. -/
def RunContext.beforeStep (deps : Deps) (rc0 : RunContext) (k : Nat) : common.Executor :=
  common.NewPipelineExecutor ((rc0.stages deps).take (3 + k))

/-- The job pipeline cut after the executor of the step at position `k`. -/
def RunContext.throughStep (deps : Deps) (rc0 : RunContext) (k : Nat) : common.Executor :=
  common.NewPipelineExecutor ((rc0.stages deps).take (3 + k + 1))

/-! ## Concrete inputs used by the examples -/

/-- An evaluator that interpolates nothing and evaluates `Boolean(true)` to
`true`, `Boolean(boom)` to an error and everything else to `false`. -/
def plainEvaluator : ExpressionEvaluator :=
  { Evaluate := fun e =>
      if e = "Boolean(true)" then .ok "true"
      else if e = "Boolean(boom)" then .error "boom"
      else .ok "false",
    Interpolate := fun e => e }

/-- A configuration with nothing set. -/
def plainConfig : Config :=
  { Workdir := "/src", BindWorkdir := false, EventName := "push", Actor := "",
    ForcePull := false, LogOutput := false, ReuseContainers := false,
    Env := ∅, Secrets := ∅, Platforms := ∅ }

/-- A job with no steps, no labels and no container. -/
def plainJob : Job :=
  { Name := "job", If := "", Env := ∅, Steps := [], RunsOn := [], Container := none }

/-- The run context of job `job` of workflow `wf`, before anything ran. -/
def wfJobContext : RunContext :=
  { Name := "job", Config := plainConfig, Matrix := [],
    Run := { Workflow := { Name := "wf", Env := ∅ }, Job := plainJob },
    EventJSON := "", Env := none, ExtraPath := [], CurrentStep := "",
    StepResults := ∅, ExprEval := plainEvaluator,
    JobContainer := none, DINDContainer := none, trace := [] }

/-- The map with the given entries, built by assignments in order. -/
def StrMap.ofList (l : List (String × String)) : StrMap :=
  l.foldl (fun m kv => m.insert kv.1 kv.2) ∅

/-- A run context whose three environment levels overlap: `A` is set by the
configuration only, `B` by configuration and workflow, `C` by all three. -/
def envContext : RunContext :=
  { wfJobContext with
    Config := { plainConfig with Env := StrMap.ofList [("A", "cfg"), ("B", "cfg"), ("C", "cfg")] },
    Run :=
      { Workflow := { Name := "wf", Env := StrMap.ofList [("B", "wf"), ("C", "wf")] },
        Job := { plainJob with Env := StrMap.ofList [("C", "job")] } } }

/-- The event tree `{"pull_request":{"base":{"ref":"main"}}}`. -/
def pullRequestTree : JMap :=
  [("pull_request", JValue.obj [("base", JValue.obj [("ref", JValue.str "main")])])]

/-- The text of `pullRequestTree`. -/
def pullRequestJSON : String :=
  "\x7b\"pull_request\":\x7b\"base\":\x7b\"ref\":\"main\"\x7d\x7d\x7d"

/-- Collaborators for the examples: a git checkout of `owner/repo` on
`refs/heads/main`, a decoder that knows `pullRequestJSON`, the step typing of
the workflow model, a driver that never fails, and an action that fails
exactly for the command `exit 1`. -/
def plainDeps : Deps :=
  { GOOS := "linux",
    Getenv := fun _ => "",
    ToLower := fun s => ⟨s.data.map Char.toLower⟩,
    filepathJoin := fun a b => if b = "" then a else a ++ "/" ++ b,
    FindGithubRepo := fun _ => .ok "owner/repo",
    FindGitRevision := fun _ => .ok ("0123456", "0123456789abcdef"),
    FindGitRef := fun _ => .ok "refs/heads/main",
    jsonUnmarshal := fun data m =>
      if data = pullRequestJSON then (pullRequestTree, none) else (m, some "invalid character"),
    stepType := fun step =>
      if step.Run ≠ "" then StepType.StepTypeRun
      else if ("docker://".data).isPrefixOf step.Uses.data then StepType.StepTypeUsesDockerURL
      else if ("./".data).isPrefixOf step.Uses.data then StepType.StepTypeUsesActionLocal
      else StepType.StepTypeUsesActionRemote,
    remoteIsCheckout := fun uses => ("actions/checkout@".data).isPrefixOf uses.data,
    setupEnv := fun _ rc => rc.Env,
    NewExpressionEvaluator := fun _ _ => plainEvaluator,
    stepExecutor := fun step rc =>
      { Outputs := ∅, Env := rc.Env, ExtraPath := rc.ExtraPath,
        err := if step.Run = "exit 1" then some (Err.error "exit status 1") else none },
    engine := fun _ _ => none }

/-- A run context for a `pull_request` event without payload. -/
def pullRequestNoPayload : RunContext :=
  { wfJobContext with Config := { plainConfig with EventName := "pull_request" } }

/-- A run context for a `pull_request` event with the payload
`pullRequestJSON`. -/
def pullRequestContext : RunContext :=
  { wfJobContext with
    Config := { plainConfig with EventName := "pull_request" },
    EventJSON := pullRequestJSON }

/-- A remote checkout step with no `repository` and no `ref` input. -/
def checkoutStep : Step :=
  { ID := "", If := "", Name := "", Uses := "actions/checkout@v2", Run := "",
    With := ∅, Env := ∅ }

/-- The same step with an explicit `repository` input for another
repository. -/
def checkoutOtherStep : Step :=
  { checkoutStep with With := StrMap.ofList [("repository", "other/repo")] }

/-- Step results with one failed and one succeeded step. -/
def mixedResults : AList (fun _ : String => stepResult) :=
  ((∅ : AList (fun _ : String => stepResult)).insert "build"
    { Success := false, Outputs := ∅ }).insert "test" { Success := true, Outputs := ∅ }

/-- Step results with two succeeded steps. -/
def passedResults : AList (fun _ : String => stepResult) :=
  ((∅ : AList (fun _ : String => stepResult)).insert "build"
    { Success := true, Outputs := ∅ }).insert "test" { Success := true, Outputs := ∅ }

/-- Whether an event is the start of a step executor. -/
def isStepStage : Event → Bool
  | Event.stepStage _ => true
  | _ => false

/-- Whether an event is the workspace copy stage of the job container. -/
def isCopyDir : Event → Bool
  | Event.job (ContainerOp.CopyDir _ _ _) => true
  | _ => false

/-- Whether an event is the remote-URL-to-HTTPS rewrite stage. -/
def isChangeRemote : Event → Bool
  | Event.job (ContainerOp.ChangeRemoteToHttps _) => true
  | _ => false

/-- A step that runs a shell command. -/
def runStep (id command : String) : Step :=
  { ID := id, If := "", Name := "", Uses := "", Run := command, With := ∅, Env := ∅ }

/-- A run context for a job on `ubuntu-latest`, with that label configured,
that declares the given steps. -/
def ubuntuContext (steps : List Step) : RunContext :=
  { wfJobContext with
    Config := { plainConfig with Platforms := StrMap.ofList [("ubuntu-latest", "node:12")] },
    Run :=
      { Workflow := { Name := "wf", Env := ∅ },
        Job := { plainJob with RunsOn := ["self-hosted", "Ubuntu-Latest"], Steps := steps } } }

/-- A run context for a job with an explicit container. -/
def containerContext : RunContext :=
  { wfJobContext with
    Run :=
      { Workflow := { Name := "wf", Env := ∅ },
        Job :=
          { plainJob with
            RunsOn := ["ubuntu-latest"],
            Container := some { Image := "alpine:3", Env := ∅ } } } }

/-- A run context like `ubuntuContext` whose configuration binds the host
working directory into the container. -/
def boundContext (steps : List Step) : RunContext :=
  { ubuntuContext steps with
    Config :=
      { plainConfig with
        BindWorkdir := true,
        Platforms := StrMap.ofList [("ubuntu-latest", "node:12")] } }

/-- A job of three command steps without identifiers; the second fails. -/
def failingContext : RunContext :=
  ubuntuContext [runStep "" "echo ok", runStep "" "exit 1", runStep "" "echo never"]

/-- A job of two command steps that declare the same identifier `a`; the
second fails. -/
def sameIdContext : RunContext :=
  ubuntuContext [runStep "a" "echo ok", runStep "a" "exit 1"]

/-- The entries of `mixedResults`, registered in the other order. -/
def mixedResultsSwapped : AList (fun _ : String => stepResult) :=
  ((∅ : AList (fun _ : String => stepResult)).insert "test"
    { Success := true, Outputs := ∅ }).insert "build" { Success := false, Outputs := ∅ }

/-- A run context after one failed and one succeeded step. -/
def mixedContext : RunContext :=
  { wfJobContext with StepResults := mixedResults }

/-- The run context `mixedContext` with its step results in the other order. -/
def mixedContextSwapped : RunContext :=
  { wfJobContext with StepResults := mixedResultsSwapped }

/-- A run context after two succeeded steps. -/
def passedContext : RunContext :=
  { wfJobContext with StepResults := passedResults }

/-- A run context for a job that declares a step and a truthy condition and
runs on `windows-latest` or `macOS-latest`, with only `ubuntu-latest`
configured in the platform table. -/
def unmappedContext : RunContext :=
  { wfJobContext with
    Config := { plainConfig with Platforms := StrMap.ofList [("ubuntu-latest", "node:12")] },
    Run :=
      { Workflow := { Name := "wf", Env := ∅ },
        Job :=
          { plainJob with
            If := "true",
            RunsOn := ["windows-latest", "macOS-latest"],
            Steps := [runStep "" "echo hi"] } } }

/-- The collaborators of `plainDeps` with a driver that fails the pull of the
job container's image. -/
def pullFailsDeps : Deps :=
  { plainDeps with
    engine := fun _ ev =>
      match ev with
      | Event.job (ContainerOp.Pull _) => some (Err.error "pull failed")
      | _ => none }

/-- The collaborators of `plainDeps` with a driver that fails the last stage
of the job-container start, the copy of the event file. -/
def copyFailsDeps : Deps :=
  { plainDeps with
    engine := fun _ ev =>
      match ev with
      | Event.job (ContainerOp.Copy _ _) => some (Err.error "copy failed")
      | _ => none }

/-! # Properties -/

/-! ## Lists of characters -/

theorem intercalate_pair_cons (sep a b : List Char) (l : List (List Char)) :
    List.intercalate sep (a :: b :: l) = a ++ sep ++ List.intercalate sep (b :: l) := by
  simp [List.intercalate, List.intersperse]

theorem mem_intercalate (sep : List Char) :
    ∀ (ls : List (List Char)) (c : Char), c ∈ List.intercalate sep ls →
      c ∈ sep ∨ ∃ l ∈ ls, c ∈ l
  | [], c, hc => by simp [List.intercalate, List.intersperse] at hc
  | [a], c, hc => by
    simp [List.intercalate, List.intersperse] at hc
    exact Or.inr ⟨a, by simp, hc⟩
  | a :: b :: l, c, hc => by
    rw [intercalate_pair_cons] at hc
    rcases List.mem_append.mp hc with h1 | h2
    · rcases List.mem_append.mp h1 with h3 | h4
      · exact Or.inr ⟨a, by simp, h3⟩
      · exact Or.inl h4
    · rcases mem_intercalate sep (b :: l) c h2 with h5 | ⟨x, hx, hcx⟩
      · exact Or.inl h5
      · exact Or.inr ⟨x, List.mem_cons_of_mem _ hx, hcx⟩

theorem length_intercalate (sep : List Char) :
    ∀ (ls : List (List Char)),
      (List.intercalate sep ls).length = (ls.map List.length).sum + sep.length * (ls.length - 1)
  | [] => by simp [List.intercalate, List.intersperse]
  | [a] => by simp [List.intercalate, List.intersperse]
  | a :: b :: l => by
    rw [intercalate_pair_cons, List.length_append, List.length_append,
      length_intercalate sep (b :: l)]
    simp only [List.map_cons, List.sum_cons, List.length_cons, Nat.add_sub_cancel]
    ring

/-- The data of `stringsTrim` is `dropWhile` followed by `rdropWhile`. -/
theorem stringsTrim_data (s : String) (cut : Char) :
    (stringsTrim s cut).data = List.rdropWhile (· == cut) (s.data.dropWhile (· == cut)) := rfl

theorem stringsTrim_sublist (s : String) (cut : Char) :
    (stringsTrim s cut).data.Sublist s.data := by
  rw [stringsTrim_data]
  exact ( List.rdropWhile_prefix _ _).sublist.trans ( List.dropWhile_sublist _)

theorem stringsTrim_head (s : String) (cut : Char) :
    (stringsTrim s cut).data.head? ≠ some cut := by
  rw [stringsTrim_data]
  intro hh
  have hpre : List.rdropWhile (· == cut) (s.data.dropWhile (· == cut))
      <+: s.data.dropWhile (· == cut) := List.rdropWhile_prefix _ _
  obtain ⟨t, ht⟩ := hpre
  have hnot := List.head?_dropWhile_not (· == cut) s.data
  cases hr : List.rdropWhile (· == cut) (s.data.dropWhile (· == cut)) with
  | nil => rw [hr] at hh; simp at hh
  | cons x xs =>
    rw [hr] at hh ht
    simp at hh
    rw [← ht] at hnot
    simp [hh] at hnot

theorem stringsTrim_getLast (s : String) (cut : Char) :
    (stringsTrim s cut).data.getLast? ≠ some cut := by
  rw [stringsTrim_data]
  intro hh
  by_cases hne : List.rdropWhile (· == cut) (s.data.dropWhile (· == cut)) = []
  · rw [hne] at hh; simp at hh
  · have hlast := List.rdropWhile_last_not (· == cut) (s.data.dropWhile (· == cut)) hne
    rw [List.getLast?_eq_getLast _ hne] at hh
    simp at hh
    simp [hh] at hlast

/-! ## Container names -/

theorem replaceNonAlnum_chars (part : String) :
    ∀ c ∈ (replaceNonAlnum part).data, isAlnum c = true ∨ c = '-' := by
  intro c hc
  simp only [replaceNonAlnum, List.mem_map] at hc
  obtain ⟨x, _, hx⟩ := hc
  by_cases hal : isAlnum x = true
  · rw [if_pos hal] at hx
    exact Or.inl (hx ▸ hal)
  · rw [if_neg hal] at hx
    exact Or.inr hx.symm

theorem replaceNonAlnum_length (part : String) :
    (replaceNonAlnum part).length = part.length := by
  show (part.data.map _).length = part.data.length
  exact List.length_map _ _

theorem trimToLen_cases (s : String) (l : Int) :
    (trimToLen s l = s ∧ (s.length : Int) ≤ max 0 l) ∨
      (trimToLen s l = ⟨s.data.take (max 0 l).toNat⟩ ∧ max 0 l < (s.length : Int)) := by
  by_cases hl : l < 0
  · have hmax : max 0 l = 0 := by omega
    by_cases hs : (s.length : Int) > 0
    · right
      simp only [trimToLen, if_pos hl, if_pos hs, hmax]
      exact ⟨trivial, hs⟩
    · left
      simp only [trimToLen, if_pos hl, if_neg hs, hmax]
      exact ⟨trivial, by omega⟩
  · have hmax : max 0 l = l := by omega
    by_cases hs : (s.length : Int) > l
    · right
      simp only [trimToLen, if_neg hl, if_pos hs, hmax]
      exact ⟨trivial, hs⟩
    · left
      simp only [trimToLen, if_neg hl, if_neg hs, hmax]
      exact ⟨trivial, by omega⟩

theorem trimToLen_isPrefix (s : String) (l : Int) : (trimToLen s l).data <+: s.data := by
  rcases trimToLen_cases s l with ⟨h, _⟩ | ⟨h, _⟩
  · rw [h]
  · rw [h]
    exact List.take_prefix _ _

theorem trimToLen_length (s : String) (l : Int) :
    ((trimToLen s l).length : Int) ≤ max 0 l := by
  rcases trimToLen_cases s l with ⟨h, hle⟩ | ⟨h, hlt⟩
  · rw [h]
    exact hle
  · rw [h]
    show ((s.data.take (max 0 l).toNat).length : Int) ≤ max 0 l
    rw [List.length_take]
    have : (s.length : Int) = (s.data.length : Int) := rfl
    omega

theorem nameParts_length (n : Nat) (partLen : Int) :
    ∀ (parts : List String) (i : Nat), (nameParts n partLen i parts).length = parts.length
  | [], _ => rfl
  | _ :: rest, i => by simp [nameParts, nameParts_length n partLen rest (i + 1)]

theorem nameParts_getElem? (n : Nat) (partLen : Int) :
    ∀ (parts : List String) (i j : Nat) (p : String), parts[j]? = some p →
      (nameParts n partLen i parts)[j]? =
        some (if i + j = n - 1 then replaceNonAlnum p
              else trimToLen (replaceNonAlnum p) partLen)
  | [], _, _, _, h => by simp at h
  | part :: rest, i, 0, p, h => by
    simp at h
    simp [nameParts, h]
  | part :: rest, i, j + 1, p, h => by
    simp at h
    have ih := nameParts_getElem? n partLen rest (i + 1) j p h
    simp only [nameParts, List.getElem?_cons_succ, ih]
    have : i + 1 + j = i + (j + 1) := by omega
    rw [this]

theorem nameParts_chars (n : Nat) (partLen : Int) :
    ∀ (parts : List String) (i : Nat), ∀ comp ∈ nameParts n partLen i parts,
      ∀ c ∈ comp.data, isAlnum c = true ∨ c = '-'
  | [], _, comp, h => by simp [nameParts] at h
  | part :: rest, i, comp, h => by
    simp only [nameParts, List.mem_cons] at h
    rcases h with h | h
    · intro c hc
      subst h
      split at hc
      · exact replaceNonAlnum_chars part c hc
      · exact replaceNonAlnum_chars part c (( trimToLen_isPrefix _ _).subset hc)
    · exact nameParts_chars n partLen rest (i + 1) comp h

/-- The components built by the loop take at most `max 0 partLen` characters
each, the last one apart, which takes the length of the last part. -/
theorem nameParts_sum_length (n : Nat) (partLen : Int) :
    ∀ (parts : List String) (i : Nat) (h : parts ≠ []), i + parts.length = n →
      (((nameParts n partLen i parts).map String.length).sum : Int) ≤
        ((parts.length : Int) - 1) * max 0 partLen + ((parts.getLast h).length : Int)
  | [], _, h, _ => absurd rfl h
  | [part], i, _, hn => by
    have : i = n - 1 := by simp at hn; omega
    simp [nameParts, this, replaceNonAlnum_length]
  | part :: q :: rest, i, _, hn => by
    have hne : i ≠ n - 1 := by simp at hn; omega
    have ih := nameParts_sum_length n partLen (q :: rest) (i + 1) (by simp)
      (by simp at hn ⊢; omega)
    have hhead := trimToLen_length (replaceNonAlnum part) partLen
    rw [nameParts, if_neg hne]
    simp only [List.map_cons, List.sum_cons, List.length_cons, Nat.cast_add, Nat.cast_one,
      List.getLast_cons_cons] at ih ⊢
    have hexp : ((rest.length : Int) + 1 + 1 - 1) * max 0 partLen
        = max 0 partLen + ((rest.length : Int) + 1 - 1) * max 0 partLen := by ring
    rw [hexp]
    have hq : (q :: rest).getLast (by simp) = (part :: q :: rest).getLast (by simp) := by simp
    omega

theorem rdropWhile_append_of_last (p : Char → Bool) (a : List Char) (ha : a ≠ [])
    (hlast : p (a.getLast ha) = false) :
    ∀ b : List Char, List.rdropWhile p (a ++ b) = a ++ List.rdropWhile p b := by
  intro b
  induction b using List.reverseRecOn with
  | nil =>
    simp only [List.append_nil, List.rdropWhile_nil]
    obtain ⟨a1, x, rfl⟩ : ∃ a1 x, a = a1 ++ [x] :=
      ⟨a.dropLast, a.getLast ha, ( List.dropLast_append_getLast ha).symm⟩
    simp only [List.getLast_append_singleton] at hlast
    rw [List.rdropWhile_concat, hlast]
    simp
  | append_singleton l x ih =>
    rw [← List.append_assoc, List.rdropWhile_concat, List.rdropWhile_concat, ih]
    split <;> simp

/-- The name built for the tool identity, fixed middle components and the job
identity: the fixed components survive, the job identity is sanitised, and
only dashes at the very end are trimmed. -/
theorem createContainerName_act (mid : List Char) (s : String) :
    stringsTrim ⟨'a' :: 'c' :: 't' :: (mid ++ '-' :: (replaceNonAlnum s).data)⟩ '-'
      = ⟨'a' :: 'c' :: 't' ::
          List.rdropWhile (· == '-') (mid ++ '-' :: (replaceNonAlnum s).data)⟩ := by
  apply String.ext
  rw [stringsTrim_data]
  show List.rdropWhile (· == '-')
      (List.dropWhile (· == '-') ('a' :: 'c' :: 't' :: (mid ++ '-' :: (replaceNonAlnum s).data)))
    = _
  rw [List.dropWhile_cons_of_neg (by decide)]
  exact rdropWhile_append_of_last (· == '-') ['a', 'c', 't'] (by simp) (by decide) _

/-- C7.  For every non-empty list of parts `createContainerName` returns a
name `r` whose characters are all in `[a-zA-Z0-9-]` and that neither begins
nor ends with `-`; it is the dash-trimmed, dash-joined list of components
`comps`, one per part, where every component other than the last is a
leading piece of the sanitised part of at most `max 0 (30 / n - 1)`
characters and the last component is the whole sanitised last part; so `r`
has at most `(n - 1) * (max 0 (30 / n - 1) + 1)` characters plus the length
of the last part.  For `("act", "dind", "wf/job")` the name is
`act-dind-wf-job`, of length at most 30. -/
theorem createContainerName_shape (parts : List String) (h : parts ≠ []) :
    ∃ (r : String) (comps : List String),
      createContainerName parts = some r ∧
      (∀ c ∈ r.data, isAlnum c = true ∨ c = '-') ∧
      r.data.head? ≠ some '-' ∧ r.data.getLast? ≠ some '-' ∧
      r = stringsTrim (stringsJoin comps "-") '-' ∧
      comps.length = parts.length ∧
      (∀ (i : Nat) (p : String), parts[i]? = some p →
        ∃ c, comps[i]? = some c ∧
          (i + 1 < parts.length →
            (c.length : Int) ≤ max 0 (30 / (parts.length : Int) - 1) ∧
            c.data <+: (replaceNonAlnum p).data) ∧
          (i + 1 = parts.length → c = replaceNonAlnum p)) ∧
      (r.length : Int) ≤
        ((parts.length : Int) - 1) * (max 0 (30 / (parts.length : Int) - 1) + 1)
          + ((parts.getLast h).length : Int) ∧
      createContainerName ["act", "dind", "wf/job"] = some "act-dind-wf-job" ∧
      ("act-dind-wf-job" : String).length ≤ 30 := by
  have hlen : parts.length ≠ 0 := fun h0 => h ( List.length_eq_zero.mp h0)
  refine ⟨_, nameParts parts.length (30 / (parts.length : Int) - 1) 0 parts,
    by simp only [createContainerName, if_neg hlen], ?_, stringsTrim_head _ _,
    stringsTrim_getLast _ _, rfl, nameParts_length _ _ _ _, ?_, ?_, by decide, by decide⟩
  · intro c hc
    have hc1 := (stringsTrim_sublist _ _).subset hc
    rcases mem_intercalate _ _ c hc1 with hsep | ⟨l, hl, hcl⟩
    · right
      simpa using hsep
    · obtain ⟨comp, hcomp, rfl⟩ := List.mem_map.mp hl
      exact nameParts_chars _ _ _ _ comp hcomp c hcl
  · intro i p hp
    refine ⟨_, nameParts_getElem? _ _ parts 0 i p hp, ?_, ?_⟩
    · intro hi
      have hne : ¬ (0 + i = parts.length - 1) := by omega
      rw [if_neg hne]
      exact ⟨trimToLen_length _ _, trimToLen_isPrefix _ _⟩
    · intro hi
      have heq : 0 + i = parts.length - 1 := by omega
      rw [if_pos heq]
  · have hsub := (stringsTrim_sublist
      (stringsJoin (nameParts parts.length (30 / (parts.length : Int) - 1) 0 parts) "-")
      '-').length_le
    have hjoin := length_intercalate ("-" : String).data
      ((nameParts parts.length (30 / (parts.length : Int) - 1) 0 parts).map String.data)
    have hsum := nameParts_sum_length parts.length (30 / (parts.length : Int) - 1) parts 0 h
      (by omega)
    have hmap : (((nameParts parts.length (30 / (parts.length : Int) - 1) 0 parts).map
        String.data).map List.length)
        = (nameParts parts.length (30 / (parts.length : Int) - 1) 0 parts).map String.length := by
      rw [List.map_map]
      rfl
    rw [hmap, List.length_map, nameParts_length] at hjoin
    have hsep : ("-" : String).data.length = 1 := rfl
    rw [hsep] at hjoin
    have hr : (stringsTrim
        (stringsJoin (nameParts parts.length (30 / (parts.length : Int) - 1) 0 parts) "-")
        '-').length ≤ (stringsJoin
          (nameParts parts.length (30 / (parts.length : Int) - 1) 0 parts) "-").data.length :=
      hsub
    have hj2 : (stringsJoin
          (nameParts parts.length (30 / (parts.length : Int) - 1) 0 parts) "-").data.length
        = ((nameParts parts.length (30 / (parts.length : Int) - 1) 0 parts).map
            String.length).sum + 1 * (parts.length - 1) := hjoin
    have hpos : 0 < parts.length := Nat.pos_of_ne_zero hlen
    have hr2 : ((stringsTrim
        (stringsJoin (nameParts parts.length (30 / (parts.length : Int) - 1) 0 parts) "-")
        '-').length : Int) ≤ ((((nameParts parts.length (30 / (parts.length : Int) - 1) 0
          parts).map String.length).sum : Nat) : Int) + ((parts.length : Int) - 1) := by
      rw [hj2] at hr
      omega
    have hring : ((parts.length : Int) - 1) * (max 0 (30 / (parts.length : Int) - 1) + 1)
        = ((parts.length : Int) - 1) * max 0 (30 / (parts.length : Int) - 1)
          + ((parts.length : Int) - 1) := by ring
    rw [hring]
    linarith

/-- The witness of C7: the parts `("act", "dind", "wf/job")`. -/
theorem createContainerName_shape_witness :
    ∃ (r : String) (comps : List String),
      createContainerName ["act", "dind", "wf/job"] = some r ∧
      (∀ c ∈ r.data, isAlnum c = true ∨ c = '-') ∧
      r.data.head? ≠ some '-' ∧ r.data.getLast? ≠ some '-' ∧
      r = stringsTrim (stringsJoin comps "-") '-' ∧
      comps.length = ["act", "dind", "wf/job"].length ∧
      (∀ (i : Nat) (p : String), ["act", "dind", "wf/job"][i]? = some p →
        ∃ c, comps[i]? = some c ∧
          (i + 1 < ["act", "dind", "wf/job"].length →
            (c.length : Int) ≤ max 0 (30 / (["act", "dind", "wf/job"].length : Int) - 1) ∧
            c.data <+: (replaceNonAlnum p).data) ∧
          (i + 1 = ["act", "dind", "wf/job"].length → c = replaceNonAlnum p)) ∧
      (r.length : Int) ≤
        ((["act", "dind", "wf/job"].length : Int) - 1)
            * (max 0 (30 / (["act", "dind", "wf/job"].length : Int) - 1) + 1)
          + ((["act", "dind", "wf/job"].getLast (by decide)).length : Int) ∧
      createContainerName ["act", "dind", "wf/job"] = some "act-dind-wf-job" ∧
      ("act-dind-wf-job" : String).length ≤ 30 :=
  createContainerName_shape ["act", "dind", "wf/job"] (by decide)

/-- The text that follows `act` in the job container's name and `act-dind`
in the sidecar's: a dash and the sanitised job identity, without the dashes
at its end. -/
theorem jobContainerName_eq (rc : RunContext) :
    rc.jobContainerName
      = "act" ++ ⟨List.rdropWhile (· == '-') ('-' :: (replaceNonAlnum rc.toString).data)⟩ := by
  have hparts : nameParts 2 (30 / ((2 : Nat) : Int) - 1) 0 ["act", rc.toString]
      = ["act", replaceNonAlnum rc.toString] := by
    have h1 : trimToLen (replaceNonAlnum "act") 14 = "act" := by decide
    simp [nameParts, h1]
  have hjoin : stringsJoin ["act", replaceNonAlnum rc.toString] "-"
      = ⟨'a' :: 'c' :: 't' :: ([] ++ '-' :: (replaceNonAlnum rc.toString).data)⟩ := by
    apply String.ext
    simp [stringsJoin, List.intercalate, List.intersperse]
  have hname : createContainerName ["act", rc.toString]
      = some ("act" ++
          ⟨List.rdropWhile (· == '-') ('-' :: (replaceNonAlnum rc.toString).data)⟩) := by
    simp only [createContainerName, List.length_cons, List.length_nil]
    rw [if_neg (by decide), hparts, hjoin, createContainerName_act]
    rfl
  simp only [RunContext.jobContainerName, hname, Option.get_some]

theorem dindContainerName_eq (rc : RunContext) :
    rc.dindContainerName
      = "act-dind" ++
          ⟨List.rdropWhile (· == '-') ('-' :: (replaceNonAlnum rc.toString).data)⟩ := by
  have hparts : nameParts 3 (30 / ((3 : Nat) : Int) - 1) 0 ["act", "dind", rc.toString]
      = ["act", "dind", replaceNonAlnum rc.toString] := by
    have h1 : trimToLen (replaceNonAlnum "act") 9 = "act" := by decide
    have h2 : trimToLen (replaceNonAlnum "dind") 9 = "dind" := by decide
    simp [nameParts, h1, h2]
  have hjoin : stringsJoin ["act", "dind", replaceNonAlnum rc.toString] "-"
      = ⟨'a' :: 'c' :: 't' ::
          (['-', 'd', 'i', 'n', 'd'] ++ '-' :: (replaceNonAlnum rc.toString).data)⟩ := by
    apply String.ext
    simp [stringsJoin, List.intercalate, List.intersperse]
  have hmid : List.rdropWhile (· == '-')
      (['-', 'd', 'i', 'n', 'd'] ++ '-' :: (replaceNonAlnum rc.toString).data)
      = ['-', 'd', 'i', 'n', 'd'] ++
          List.rdropWhile (· == '-') ('-' :: (replaceNonAlnum rc.toString).data) :=
    rdropWhile_append_of_last (· == '-') ['-', 'd', 'i', 'n', 'd'] (by simp) (by decide) _
  have hname : createContainerName ["act", "dind", rc.toString]
      = some ("act-dind" ++
          ⟨List.rdropWhile (· == '-') ('-' :: (replaceNonAlnum rc.toString).data)⟩) := by
    simp only [createContainerName, List.length_cons, List.length_nil]
    rw [if_neg (by decide), hparts, hjoin, createContainerName_act, hmid]
    rfl
  simp only [RunContext.dindContainerName, hname, Option.get_some]

/-- C6, as the code has it.  For every run context the sidecar's name is the
job container's name with the component `dind` placed right after the tool
identity `act`, not appended: there is one text `t` (a dash and the
sanitised job identity, trailing dashes trimmed) with
`jobContainerName = "act" ++ t` and `dindContainerName = "act-dind" ++ t`.
For workflow `wf` and job `job` the names are `act-wf-job` and
`act-dind-wf-job`. -/
theorem dindContainerName_infix (rc : RunContext) :
    (∃ t : String, rc.jobContainerName = "act" ++ t ∧ rc.dindContainerName = "act-dind" ++ t) ∧
      wfJobContext.jobContainerName = "act-wf-job" ∧
      wfJobContext.dindContainerName = "act-dind-wf-job" :=
  ⟨⟨_, jobContainerName_eq rc, dindContainerName_eq rc⟩, by decide, by decide⟩

/-- C6 as stated fails for workflow `wf`, job `job`: the sidecar is named
`act-dind-wf-job`, which does not end with `-dind` and is not the job
container's name `act-wf-job` followed by `-dind`. -/
theorem dindContainerName_not_suffix :
    wfJobContext.Run.Workflow.Name = "wf" ∧ wfJobContext.Name = "job" ∧
      wfJobContext.dindContainerName = "act-dind-wf-job" ∧
      ¬ (("-dind" : String).data <:+ wfJobContext.dindContainerName.data) ∧
      wfJobContext.dindContainerName ≠ wfJobContext.jobContainerName ++ "-dind" := by
  decide

/-! ## Environment merge -/

/-- Assigning the entries of a map into an accumulator: a key of the map
reads as in the map, any other key as in the accumulator. -/
theorem lookup_foldl_insert (k : String) :
    ∀ (l : List (Sigma fun _ : String => String)) (acc : StrMap), l.NodupKeys →
      (l.foldl (fun acc kv => acc.insert kv.1 kv.2) acc).lookup k
        = match List.dlookup k l with
          | some v => some v
          | none => acc.lookup k
  | [], acc, _ => by simp
  | ⟨a, b⟩ :: t, acc, hnd => by
    have hnd2 := List.nodupKeys_cons.mp hnd
    rw [List.foldl_cons, lookup_foldl_insert k t _ hnd2.2]
    by_cases hka : k = a
    · subst hka
      have hnone : List.dlookup k t = none := List.dlookup_eq_none.mpr hnd2.1
      rw [hnone, List.dlookup_cons_eq]
      exact AList.lookup_insert _
    · rw [List.dlookup_cons_ne _ _ hka]
      cases List.dlookup k t with
      | some v => rfl
      | none => exact AList.lookup_insert_ne hka

/-- The loops of `mergeMaps` write to `rtnMap` only. -/
theorem mergeMaps_inner_frame (m : List (Sigma fun _ : String => String)) :
    ∀ (frame : MergeFrame),
      (m.foldl (fun (frame : MergeFrame) kv =>
          { frame with rtnMap := frame.rtnMap.insert kv.1 kv.2 }) frame)
        = { maps := frame.maps,
            rtnMap := m.foldl (fun acc kv => acc.insert kv.1 kv.2) frame.rtnMap } := by
  induction m with
  | nil => intro frame; rfl
  | cons kv t ih => intro frame; rw [List.foldl_cons, ih]; rfl

theorem mergeMaps_outer_frame :
    ∀ (ms : List StrMap) (frame : MergeFrame),
      (ms.foldl
        (fun (frame : MergeFrame) (m : StrMap) =>
          m.entries.foldl
            (fun (frame : MergeFrame) kv =>
              { frame with rtnMap := frame.rtnMap.insert kv.1 kv.2 }) frame) frame)
        = { maps := frame.maps,
            rtnMap := ms.foldl
              (fun acc (m : StrMap) => m.entries.foldl (fun acc kv => acc.insert kv.1 kv.2) acc)
              frame.rtnMap }
  | [], frame => rfl
  | m :: t, frame => by
    rw [List.foldl_cons, mergeMaps_inner_frame, mergeMaps_outer_frame t]
    rfl

theorem mergeMaps_eq_foldl (maps : List StrMap) :
    mergeMaps maps
      = maps.foldl
          (fun acc (m : StrMap) => m.entries.foldl (fun acc kv => acc.insert kv.1 kv.2) acc) ∅ := by
  unfold mergeMaps mergeMapsFrame
  rw [mergeMaps_outer_frame]

theorem mergeMaps_nil (k : String) : (mergeMaps []).lookup k = none := by
  rw [mergeMaps_eq_foldl]
  rfl

/-- One more map at the end takes precedence over the maps before it. -/
theorem mergeMaps_concat (ms : List StrMap) (m : StrMap) (k : String) :
    (mergeMaps (ms ++ [m])).lookup k
      = match m.lookup k with
        | some v => some v
        | none => (mergeMaps ms).lookup k := by
  rw [mergeMaps_eq_foldl, mergeMaps_eq_foldl, List.foldl_append, List.foldl_cons, List.foldl_nil]
  exact lookup_foldl_insert k m.entries _ m.nodupKeys

/-- The value of a key in the merge is its value in the last map that has
the key. -/
theorem mergeMaps_lookup (k v : String) :
    ∀ maps : List StrMap,
      (mergeMaps maps).lookup k = some v ↔
        ∃ (pre : List StrMap) (m : StrMap) (post : List StrMap),
          maps = pre ++ m :: post ∧ m.lookup k = some v ∧ ∀ m1 ∈ post, m1.lookup k = none := by
  intro maps
  induction maps using List.reverseRecOn with
  | nil =>
    rw [mergeMaps_nil]
    constructor
    · intro h; cases h
    · rintro ⟨pre, m, post, h, _⟩
      simp at h
  | append_singleton ms x ih =>
    rw [mergeMaps_concat]
    constructor
    · intro h
      cases hx : x.lookup k with
      | some w =>
        rw [hx] at h
        exact ⟨ms, x, [], by simp, by rw [hx]; exact h, by simp⟩
      | none =>
        rw [hx] at h
        obtain ⟨pre, m, post, hms, hm, hpost⟩ := ih.mp h
        refine ⟨pre, m, post ++ [x], by simp [hms], hm, ?_⟩
        intro m1 hm1
        rcases List.mem_append.mp hm1 with h1 | h1
        · exact hpost m1 h1
        · simp at h1
          rw [h1]
          exact hx
    · rintro ⟨pre, m, post, hms, hm, hpost⟩
      rcases List.eq_nil_or_concat post with hp | ⟨post1, y, hp⟩
      · subst hp
        have h2 : ms ++ [x] = pre ++ [m] := hms
        have hxm : x = m := List.singleton_inj.mp ( List.append_inj_right' h2 rfl)
        rw [hxm, hm]
      · subst hp
        have h2 : ms ++ [x] = (pre ++ m :: post1) ++ [y] := by simp [hms]
        have hxy : x = y := List.singleton_inj.mp ( List.append_inj_right' h2 rfl)
        have hmsy : ms = pre ++ m :: post1 := List.append_inj_left' h2 rfl
        have hxnone : x.lookup k = none := hpost x (by simp [hxy])
        rw [hxnone]
        exact ih.mpr ⟨pre, m, post1, hmsy, hm, fun m1 h1 => hpost m1 (by simp [h1])⟩

theorem mergeMaps_mem (k : String) (maps : List StrMap) :
    k ∈ mergeMaps maps ↔ ∃ m ∈ maps, k ∈ m := by
  induction maps using List.reverseRecOn with
  | nil =>
    rw [← AList.lookup_isSome, mergeMaps_nil]
    simp
  | append_singleton ms x ih =>
    rw [← AList.lookup_isSome, mergeMaps_concat]
    cases hx : x.lookup k with
    | some w =>
      have hkx : k ∈ x := AList.lookup_isSome.mp (by rw [hx]; rfl)
      simp only [Option.isSome_some, true_iff]
      exact ⟨x, by simp, hkx⟩
    | none =>
      have hkx : k ∉ x := AList.lookup_eq_none.mp hx
      simp only
      rw [AList.lookup_isSome, ih]
      constructor
      · rintro ⟨m, hm, hk⟩
        exact ⟨m, by simp [hm], hk⟩
      · rintro ⟨m, hm, hk⟩
        rcases List.mem_append.mp hm with h1 | h1
        · exact ⟨m, h1, hk⟩
        · simp at h1
          rw [h1] at hk
          exact absurd hk hkx

/-- C4.  For every list of maps, `mergeMaps` leaves the argument maps as they
were; a key is in the result exactly when it is in one of the maps; the
result gives a key the value `v` exactly when the last map that has the key
gives it `v`.  `mergeMaps({"A":"1"}, {"A":"2","B":"3"})` has exactly the
entries `A = 2` and `B = 3`.  And `GetEnv` on a run context whose overlay is
not yet set reads a key from the job's env if the job sets it, else from the
workflow's env if the workflow sets it, else from the configuration's env. -/
theorem mergeMaps_union_last_wins (maps : List StrMap) (rc : RunContext) :
    (mergeMapsFrame maps).maps = maps ∧
    (∀ k : String, k ∈ mergeMaps maps ↔ ∃ m ∈ maps, k ∈ m) ∧
    (∀ k v : String, (mergeMaps maps).lookup k = some v ↔
      ∃ (pre : List StrMap) (m : StrMap) (post : List StrMap),
        maps = pre ++ m :: post ∧ m.lookup k = some v ∧ ∀ m1 ∈ post, k ∉ m1) ∧
    (mergeMaps [StrMap.ofList [("A", "1")], StrMap.ofList [("A", "2"), ("B", "3")]]).entries.Perm
      [⟨"A", "2"⟩, ⟨"B", "3"⟩] ∧
    (rc.Env = none → ∀ k : String,
      rc.GetEnv.1.lookup k =
        match rc.Run.Job.Env.lookup k with
        | some v => some v
        | none =>
          match rc.Run.Workflow.Env.lookup k with
          | some v => some v
          | none => rc.Config.Env.lookup k) := by
  refine ⟨?_, fun k => mergeMaps_mem k maps, ?_, by decide, ?_⟩
  · unfold mergeMapsFrame
    rw [mergeMaps_outer_frame]
  · intro k v
    rw [mergeMaps_lookup]
    constructor
    · rintro ⟨pre, m, post, h1, h2, h3⟩
      exact ⟨pre, m, post, h1, h2, fun m1 hm1 => AList.lookup_eq_none.mp (h3 m1 hm1)⟩
    · rintro ⟨pre, m, post, h1, h2, h3⟩
      exact ⟨pre, m, post, h1, h2, fun m1 hm1 => AList.lookup_eq_none.mpr (h3 m1 hm1)⟩
  · intro hEnv k
    have hget : rc.GetEnv.1
        = mergeMaps [rc.Config.Env, rc.Run.Workflow.Env, rc.Run.Job.Env] := by
      unfold RunContext.GetEnv
      rw [hEnv]
    have h3 : [rc.Config.Env, rc.Run.Workflow.Env, rc.Run.Job.Env]
        = (([] ++ [rc.Config.Env]) ++ [rc.Run.Workflow.Env]) ++ [rc.Run.Job.Env] := rfl
    rw [hget, h3, mergeMaps_concat, mergeMaps_concat, mergeMaps_concat, mergeMaps_nil]
    cases rc.Run.Job.Env.lookup k <;> cases rc.Run.Workflow.Env.lookup k <;>
      cases rc.Config.Env.lookup k <;> rfl

/-- The witness of C4: the two maps of the example, and a run context whose
overlay is not yet set, with `A` set by the configuration only, `B` by
configuration and workflow, `C` by all three levels. -/
theorem mergeMaps_union_last_wins_witness :
    envContext.Env = none ∧
      envContext.GetEnv.1.lookup "A" = some "cfg" ∧
      envContext.GetEnv.1.lookup "B" = some "wf" ∧
      envContext.GetEnv.1.lookup "C" = some "job" ∧
      envContext.GetEnv.1.lookup "D" = none :=
  have h := (mergeMaps_union_last_wins
    [StrMap.ofList [("A", "1")], StrMap.ofList [("A", "2"), ("B", "3")]] envContext).2.2.2.2 rfl
  ⟨rfl, (h "A").trans (by decide), (h "B").trans (by decide), (h "C").trans (by decide),
    (h "D").trans (by decide)⟩

/-! ## Context projections -/

theorem nestedMapLookup_of_reaches {m : JMap} {ks : List String} {v : JValue}
    (h : Reaches m ks v) : nestedMapLookup m ks = v := by
  induction h with
  | last m k v hk => simp [nestedMapLookup, hk]
  | step m k m1 ks v hk hne _ ih =>
    have hlen : ks.length ≠ 0 := fun h0 => hne ( List.length_eq_zero.mp h0)
    simp only [nestedMapLookup, hk, if_neg hlen]
    exact ih

theorem nestedMapLookup_of_not_reaches :
    ∀ (ks : List String) (m : JMap), (¬ ∃ w, Reaches m ks w) →
      nestedMapLookup m ks = JValue.null
  | [], _, _ => rfl
  | k :: ks, m, h => by
    cases hk : m.lookup k with
    | none => simp [nestedMapLookup, hk]
    | some rval =>
      by_cases hks : ks = []
      · subst hks
        exact absurd ⟨rval, Reaches.last m k rval hk⟩ h
      · have hlen : ks.length ≠ 0 := fun h0 => hks ( List.length_eq_zero.mp h0)
        cases rval with
        | obj m1 =>
          simp only [nestedMapLookup, hk, if_neg hlen]
          apply nestedMapLookup_of_not_reaches ks m1
          rintro ⟨w, hw⟩
          exact h ⟨w, Reaches.step m k m1 ks w hk hks hw⟩
        | null => simp [nestedMapLookup, hk, hlen]
        | bool b => simp [nestedMapLookup, hk, hlen]
        | num t => simp [nestedMapLookup, hk, hlen]
        | str t => simp [nestedMapLookup, hk, hlen]
        | arr items => simp [nestedMapLookup, hk, hlen]

theorem asString_of_not_str (v : JValue) (h : ∀ s, v ≠ JValue.str s) : asString v = "" := by
  cases v with
  | str s => exact absurd rfl (h s)
  | null => rfl
  | bool b => rfl
  | num t => rfl
  | arr items => rfl
  | obj fields => rfl

/-- The base and head refs of the projected context: the nested lookups in
the decoded event for a `pull_request` event, empty otherwise. -/
theorem getGithubContext_refs (deps : Deps) (rc : RunContext) :
    (rc.getGithubContext deps).BaseRef
        = (if rc.Config.EventName = "pull_request" then
            asString (nestedMapLookup (rc.getGithubContext deps).Event
              ["pull_request", "base", "ref"])
          else "") ∧
      (rc.getGithubContext deps).HeadRef
        = (if rc.Config.EventName = "pull_request" then
            asString (nestedMapLookup (rc.getGithubContext deps).Event
              ["pull_request", "head", "ref"])
          else "") := by
  exact ⟨rfl, rfl⟩

/-- C8.  `nestedMapLookup` is a total function: it returns the value reached
by following `ks` through nested maps whenever `ks` is non-empty, every key
is present at its level and every value before the last is a map
(`Reaches`), and nil in every other case; `asString` gives `""` for nil and
for every value that is not a string.  For the event name `pull_request` the
projected base ref is `main` when the event tree is
`{"pull_request":{"base":{"ref":"main"}}}` and `""` when the tree has no
string at that path; for any other event name base and head ref are `""`. -/
theorem nestedMapLookup_total (deps : Deps) (rc : RunContext) (m : JMap) (ks : List String)
    (v : JValue) :
    (Reaches m ks v → nestedMapLookup m ks = v) ∧
    ((¬ ∃ w, Reaches m ks w) → nestedMapLookup m ks = JValue.null) ∧
    asString JValue.null = "" ∧
    ((∀ s, v ≠ JValue.str s) → asString v = "") ∧
    (rc.Config.EventName = "pull_request" →
      ((rc.getGithubContext deps).Event = pullRequestTree →
        (rc.getGithubContext deps).BaseRef = "main") ∧
      ((∀ s, ¬ Reaches (rc.getGithubContext deps).Event ["pull_request", "base", "ref"]
            (JValue.str s)) →
        (rc.getGithubContext deps).BaseRef = "")) ∧
    (rc.Config.EventName ≠ "pull_request" →
      (rc.getGithubContext deps).BaseRef = "" ∧ (rc.getGithubContext deps).HeadRef = "") := by
  refine ⟨nestedMapLookup_of_reaches, nestedMapLookup_of_not_reaches ks m, rfl,
    asString_of_not_str v, ?_, ?_⟩
  · intro he
    have hb := (getGithubContext_refs deps rc).1
    rw [if_pos he] at hb
    constructor
    · intro htree
      rw [hb, htree]
      rfl
    · intro hno
      rw [hb]
      by_cases hex : ∃ w, Reaches (rc.getGithubContext deps).Event
          ["pull_request", "base", "ref"] w
      · obtain ⟨w, hw⟩ := hex
        rw [nestedMapLookup_of_reaches hw]
        apply asString_of_not_str
        intro s hs
        exact hno s (hs ▸ hw)
      · rw [nestedMapLookup_of_not_reaches _ _ hex]
        rfl
  · intro hne
    have h := getGithubContext_refs deps rc
    simp only [if_neg hne] at h
    exact h

/-- The witness of C8: the tree of the example read along
`pull_request.base.ref`; the empty tree; a value that is not a string; a
`pull_request` run with that payload, one with no payload, and a `push`
run. -/
theorem nestedMapLookup_total_witness :
    nestedMapLookup pullRequestTree ["pull_request", "base", "ref"] = JValue.str "main" ∧
      nestedMapLookup [] ["pull_request", "base", "ref"] = JValue.null ∧
      asString (JValue.num "1") = "" ∧
      (pullRequestContext.getGithubContext plainDeps).BaseRef = "main" ∧
      (pullRequestNoPayload.getGithubContext plainDeps).BaseRef = "" ∧
      (wfJobContext.getGithubContext plainDeps).BaseRef = "" ∧
      (wfJobContext.getGithubContext plainDeps).HeadRef = "" :=
  ⟨(nestedMapLookup_total plainDeps pullRequestContext pullRequestTree
      ["pull_request", "base", "ref"] (JValue.str "main")).1
      (Reaches.step _ _ _ _ _ rfl (by simp)
        (Reaches.step _ _ _ _ _ rfl (by simp) (Reaches.last _ _ _ rfl))),
   (nestedMapLookup_total plainDeps pullRequestContext [] ["pull_request", "base", "ref"]
      JValue.null).2.1 (by rintro ⟨w, hw⟩; cases hw; simp_all),
   (nestedMapLookup_total plainDeps pullRequestContext [] [] (JValue.num "1")).2.2.2.1
      (by intro s hs; cases hs),
   ((nestedMapLookup_total plainDeps pullRequestContext [] [] JValue.null).2.2.2.2.1 rfl).1 rfl,
   ((nestedMapLookup_total plainDeps pullRequestNoPayload [] [] JValue.null).2.2.2.2.1 rfl).2
      (by
        intro s hs
        have hev : (pullRequestNoPayload.getGithubContext plainDeps).Event = [] := rfl
        rw [hev] at hs
        cases hs; simp_all),
   ((nestedMapLookup_total plainDeps wfJobContext [] [] JValue.null).2.2.2.2.2 (by decide)).1,
   ((nestedMapLookup_total plainDeps wfJobContext [] [] JValue.null).2.2.2.2.2 (by decide)).2⟩

/-- C9.  For every projected context and every step, `isLocalCheckout` is
true exactly when the step is a remote-action step whose action is a checkout
action, it declares no `repository` input or that input equals
`ghc.Repository`, and it declares no `ref` input or that input equals
`ghc.Ref`.  So a remote checkout step without these inputs is a local
checkout, and one with a `repository` input other than `ghc.Repository` is
not. -/
theorem isLocalCheckout_iff (deps : Deps) (ghc : githubContext) (step : Step) :
    (ghc.isLocalCheckout deps step = true ↔
      deps.stepType step = StepType.StepTypeUsesActionRemote ∧
      deps.remoteIsCheckout step.Uses = true ∧
      ("repository" ∉ step.With ∨ step.With.lookup "repository" = some ghc.Repository) ∧
      ("ref" ∉ step.With ∨ step.With.lookup "ref" = some ghc.Ref)) ∧
    (deps.stepType step = StepType.StepTypeUsesActionRemote →
      deps.remoteIsCheckout step.Uses = true →
      "repository" ∉ step.With → "ref" ∉ step.With →
      ghc.isLocalCheckout deps step = true) ∧
    (deps.stepType step = StepType.StepTypeUsesActionRemote →
      deps.remoteIsCheckout step.Uses = true →
      ∀ r, step.With.lookup "repository" = some r → r ≠ ghc.Repository →
      ghc.isLocalCheckout deps step = false) := by
  have key : ghc.isLocalCheckout deps step = true ↔
      deps.stepType step = StepType.StepTypeUsesActionRemote ∧
      deps.remoteIsCheckout step.Uses = true ∧
      ("repository" ∉ step.With ∨ step.With.lookup "repository" = some ghc.Repository) ∧
      ("ref" ∉ step.With ∨ step.With.lookup "ref" = some ghc.Ref) := by
    simp only [← AList.lookup_eq_none]
    unfold githubContext.isLocalCheckout
    by_cases ht : deps.stepType step = StepType.StepTypeUsesActionRemote <;>
      cases hc : deps.remoteIsCheckout step.Uses <;>
      cases hr : step.With.lookup "repository" <;>
      cases hf : step.With.lookup "ref" <;>
      simp [ht]
  refine ⟨key, ?_, ?_⟩
  · intro h1 h2 h3 h4
    exact key.mpr ⟨h1, h2, Or.inl h3, Or.inl h4⟩
  · intro _ _ r hr hne
    cases hloc : ghc.isLocalCheckout deps step with
    | false => rfl
    | true =>
      rcases (key.mp hloc).2.2.1 with h | h
      · exact absurd hr (by rw [AList.lookup_eq_none.mpr h]; simp)
      · rw [hr] at h
        exact absurd (Option.some.inj h) hne

/-- The witness of C9: the step `uses: actions/checkout@v2` with no inputs,
and with `repository: other/repo`, against the context of a checkout of
`owner/repo`. -/
theorem isLocalCheckout_iff_witness :
    (wfJobContext.getGithubContext plainDeps).Repository = "owner/repo" ∧
      (wfJobContext.getGithubContext plainDeps).isLocalCheckout plainDeps checkoutStep = true ∧
      (wfJobContext.getGithubContext plainDeps).isLocalCheckout plainDeps checkoutOtherStep
        = false :=
  ⟨rfl,
   (isLocalCheckout_iff plainDeps (wfJobContext.getGithubContext plainDeps) checkoutStep).2.1
      (by decide) (by decide) (by decide) (by decide),
   (isLocalCheckout_iff plainDeps (wfJobContext.getGithubContext plainDeps)
      checkoutOtherStep).2.2 (by decide) (by decide) "other/repo" (by decide) (by decide)⟩

theorem jobStatusLoop_failure :
    ∀ (l : List (Sigma fun _ : String => stepResult)),
      (∃ e ∈ l, e.2.Success = false) → jobStatusLoop l "success" = "failure"
  | [], h => by simp at h
  | e :: rest, h => by
    unfold jobStatusLoop
    cases hs : e.2.Success with
    | false => simp
    | true =>
      simp only [Bool.not_true, Bool.false_eq_true, if_false]
      apply jobStatusLoop_failure rest
      obtain ⟨x, hx, hxs⟩ := h
      rcases List.mem_cons.mp hx with h1 | h1
      · rw [h1, hs] at hxs; cases hxs
      · exact ⟨x, h1, hxs⟩

theorem jobStatusLoop_success :
    ∀ (l : List (Sigma fun _ : String => stepResult)),
      (¬ ∃ e ∈ l, e.2.Success = false) → jobStatusLoop l "success" = "success"
  | [], _ => rfl
  | e :: rest, h => by
    unfold jobStatusLoop
    cases hs : e.2.Success with
    | false => exact absurd ⟨e, by simp, hs⟩ h
    | true =>
      simp only [Bool.not_true, Bool.false_eq_true, if_false]
      apply jobStatusLoop_success rest
      rintro ⟨x, hx, hxs⟩
      exact h ⟨x, List.mem_cons_of_mem _ hx, hxs⟩

theorem failed_entry_iff (results : AList (fun _ : String => stepResult)) :
    (∃ e ∈ results.entries, e.2.Success = false) ↔
      ∃ id r, results.lookup id = some r ∧ r.Success = false := by
  constructor
  · rintro ⟨⟨id, r⟩, he, hs⟩
    exact ⟨id, r, AList.mem_lookup_iff.mpr he, hs⟩
  · rintro ⟨id, r, hl, hs⟩
    exact ⟨⟨id, r⟩, AList.mem_lookup_iff.mp hl, hs⟩

/-- C10.  For every run context, `getJobContext` gives the status `failure`
exactly when some recorded step result has `Success = false`, and `success`
otherwise (so for the empty map); a run context whose step results are the
same entries in another order gets the same status; the run context is left
as it was.  One failed and one succeeded step give `failure`, two succeeded
steps give `success`. -/
theorem getJobContext_status (rc : RunContext) :
    (rc.getJobContext.1.Status = "failure" ↔
      ∃ id r, rc.StepResults.lookup id = some r ∧ r.Success = false) ∧
    ((¬ ∃ id r, rc.StepResults.lookup id = some r ∧ r.Success = false) →
      rc.getJobContext.1.Status = "success") ∧
    (rc.StepResults = ∅ → rc.getJobContext.1.Status = "success") ∧
    (∀ rc1 : RunContext, rc1.StepResults.entries.Perm rc.StepResults.entries →
      rc1.getJobContext.1.Status = rc.getJobContext.1.Status) ∧
    rc.getJobContext.2 = rc ∧
    ({ rc with StepResults := mixedResults }.getJobContext).1.Status = "failure" ∧
    ({ rc with StepResults := passedResults }.getJobContext).1.Status = "success" := by
  have hfail : ∀ rc0 : RunContext,
      (∃ id r, rc0.StepResults.lookup id = some r ∧ r.Success = false) →
        rc0.getJobContext.1.Status = "failure" := fun rc0 h =>
    jobStatusLoop_failure _ ((failed_entry_iff rc0.StepResults).mpr h)
  have hsucc : ∀ rc0 : RunContext,
      (¬ ∃ id r, rc0.StepResults.lookup id = some r ∧ r.Success = false) →
        rc0.getJobContext.1.Status = "success" := fun rc0 h =>
    jobStatusLoop_success _ (fun h1 => h ((failed_entry_iff rc0.StepResults).mp h1))
  refine ⟨⟨?_, hfail rc⟩, hsucc rc, ?_, ?_, rfl, rfl, rfl⟩
  · intro hst
    by_contra hno
    rw [hsucc rc hno] at hst
    exact absurd hst (by decide)
  · intro hempty
    apply hsucc rc
    rintro ⟨id, r, hl, _⟩
    rw [hempty, AList.lookup_empty] at hl
    cases hl
  · intro rc1 hperm
    by_cases hex : ∃ id r, rc.StepResults.lookup id = some r ∧ r.Success = false
    · rw [hfail rc hex]
      apply hfail rc1
      obtain ⟨id, r, hl, hs⟩ := hex
      exact ⟨id, r, by rw [AList.perm_lookup hperm]; exact hl, hs⟩
    · rw [hsucc rc hex]
      apply hsucc rc1
      rintro ⟨id, r, hl, hs⟩
      exact hex ⟨id, r, by rw [← AList.perm_lookup hperm]; exact hl, hs⟩

/-- The witness of C10: no step results; one failed and one succeeded step,
in both orders; two succeeded steps. -/
theorem getJobContext_status_witness :
    (wfJobContext.StepResults = ∅ ∧ wfJobContext.getJobContext.1.Status = "success") ∧
      mixedContext.getJobContext.1.Status = "failure" ∧
      mixedContextSwapped.getJobContext.1.Status = mixedContext.getJobContext.1.Status ∧
      passedContext.getJobContext.1.Status = "success" :=
  ⟨⟨rfl, (getJobContext_status wfJobContext).2.2.1 rfl⟩,
   (getJobContext_status mixedContext).1.mpr
     ⟨"build", { Success := false, Outputs := ∅ }, rfl, rfl⟩,
   (getJobContext_status mixedContext).2.2.2.1 mixedContextSwapped ( List.Perm.swap _ _ _),
   (getJobContext_status passedContext).2.1 (by
     rintro ⟨id, r, hl, hs⟩
     have hmem : (⟨id, r⟩ : Sigma fun _ : String => stepResult) ∈
         [⟨"test", { Success := true, Outputs := ∅ }⟩,
          ⟨"build", { Success := true, Outputs := ∅ }⟩] := AList.mem_lookup_iff.mp hl
     simp only [List.mem_cons, List.mem_nil_iff, or_false] at hmem
     rcases hmem with h | h <;>
       · injection h with _ h2
         rw [h2] at hs
         cases hs)⟩

/-- C2.  For every run context (so for every evaluator) and every
expression: `EvalBool("")` is true and makes no call on the evaluator; for a
non-empty expression `EvalBool` calls `Interpolate` on it and then
`Evaluate` on `"Boolean(" ++ Interpolate(expr) ++ ")"`, and is true exactly
when that evaluation returns no error and the string `true`; when the
evaluation returns an error `EvalBool` is false. -/
theorem EvalBool_spec (rc : RunContext) (expr : String) :
    rc.EvalBool "" = (true, []) ∧
    (expr ≠ "" →
      ((rc.EvalBool expr).1 = true ↔
        rc.ExprEval.Evaluate ("Boolean(" ++ rc.ExprEval.Interpolate expr ++ ")")
          = Except.ok "true") ∧
      (rc.EvalBool expr).2 =
        [EvalCall.Interpolate expr,
         EvalCall.Evaluate ("Boolean(" ++ rc.ExprEval.Interpolate expr ++ ")")] ∧
      (∀ e, rc.ExprEval.Evaluate ("Boolean(" ++ rc.ExprEval.Interpolate expr ++ ")")
          = Except.error e → (rc.EvalBool expr).1 = false)) := by
  refine ⟨rfl, ?_⟩
  intro hne
  unfold RunContext.EvalBool
  rw [if_pos hne]
  dsimp only
  cases hev : rc.ExprEval.Evaluate ("Boolean(" ++ rc.ExprEval.Interpolate expr ++ ")") with
  | error e => simp
  | ok v => simp

/-- The witness of C2: the expressions `true`, `false` and `boom` with an
evaluator that evaluates `Boolean(true)` to `true`, `Boolean(boom)` to an
error and everything else to `false`. -/
theorem EvalBool_spec_witness :
    (wfJobContext.EvalBool "true").1 = true ∧
      (wfJobContext.EvalBool "false").1 = false ∧
      (wfJobContext.EvalBool "boom").1 = false ∧
      (wfJobContext.EvalBool "true").2
        = [EvalCall.Interpolate "true", EvalCall.Evaluate "Boolean(true)"] :=
  ⟨((EvalBool_spec wfJobContext "true").2 (by decide)).1.mpr rfl,
   by
     have h := ((EvalBool_spec wfJobContext "false").2 (by decide)).1
     cases hb : (wfJobContext.EvalBool "false").1 with
     | false => rfl
     | true =>
       have hev : wfJobContext.ExprEval.Evaluate
           ("Boolean(" ++ wfJobContext.ExprEval.Interpolate "false" ++ ")")
           = Except.ok "false" := rfl
       have hok := (h.mp hb).symm.trans hev
       exact absurd (Except.ok.inj hok) (by decide),
   ((EvalBool_spec wfJobContext "boom").2 (by decide)).2.2 "boom" rfl,
   ((EvalBool_spec wfJobContext "true").2 (by decide)).2.1⟩

/-! ## The job pipeline -/

theorem pipeline_append (a b : List common.Executor) :
    ∀ rc : RunContext,
      common.NewPipelineExecutor (a ++ b) rc
        = match common.NewPipelineExecutor a rc with
          | (rc1, none) => common.NewPipelineExecutor b rc1
          | (rc1, some err) => (rc1, some err) := by
  induction a with
  | nil => intro rc; rfl
  | cons e rest ih =>
    intro rc
    simp only [List.cons_append, common.NewPipelineExecutor]
    rcases he : e rc with ⟨rc1, _ | err⟩
    · exact ih rc1
    · rfl

theorem platformImageLoop_none (deps : Deps) (rc : RunContext) :
    ∀ labels : List String,
      (∀ l ∈ labels, rc.Config.Platforms.at (deps.ToLower (rc.ExprEval.Interpolate l)) = "") →
        platformImageLoop deps rc labels = ""
  | [], _ => rfl
  | l :: rest, h => by
    have hl := h l (by simp)
    simp only [platformImageLoop, hl, ne_eq, not_true_eq_false, if_false]
    exact platformImageLoop_none deps rc rest (fun l1 h1 => h l1 ( List.mem_cons_of_mem _ h1))

theorem platformImageLoop_first (deps : Deps) (rc : RunContext) :
    ∀ (labels : List String) (i : Nat) (l : String), labels[i]? = some l →
      (∀ (j : Nat) (l1 : String), j < i → labels[j]? = some l1 →
        rc.Config.Platforms.at (deps.ToLower (rc.ExprEval.Interpolate l1)) = "") →
      rc.Config.Platforms.at (deps.ToLower (rc.ExprEval.Interpolate l)) ≠ "" →
      platformImageLoop deps rc labels
        = rc.Config.Platforms.at (deps.ToLower (rc.ExprEval.Interpolate l))
  | [], _, _, h, _, _ => by simp at h
  | l0 :: rest, 0, l, h, _, hne => by
    simp at h
    subst h
    simp only [platformImageLoop, hne, ne_eq, not_false_eq_true, if_true]
  | l0 :: rest, i + 1, l, h, hbefore, hne => by
    have h0 := hbefore 0 l0 (by omega) (by simp)
    simp only [platformImageLoop, h0, ne_eq, not_true_eq_false, if_false]
    apply platformImageLoop_first deps rc rest i l (by simpa using h) _ hne
    intro j l1 hj hl1
    exact hbefore (j + 1) l1 (by omega) (by simpa using hl1)

/-- C3.  For every job for which no target image resolves (`platformImage`
returns the empty string, as it does when the job declares no container and
no run-target label, interpolated and lower-cased, has a non-empty entry in
the platform table), `isEnabled` is false whatever the job's condition, and
the pipeline of `Executor` returns success and leaves the run context as it
was, trace included: no stage ran, no container was created, no step result
recorded.  With an explicit container `platformImage` is that container's
image whatever the labels; without one it is the image of the first label in
declaration order that maps to a non-empty image. -/
theorem platformImage_unresolved (deps : Deps) (rc0 rc : RunContext) :
    (rc.platformImage deps = "" →
      rc.isEnabled deps = false ∧ RunContext.Executor deps rc0 rc = (rc, none)) ∧
    (rc.Run.Job.Container = none →
      (∀ l ∈ rc.Run.Job.RunsOn,
        rc.Config.Platforms.at (deps.ToLower (rc.ExprEval.Interpolate l)) = "") →
      rc.platformImage deps = "") ∧
    (∀ c, rc.Run.Job.Container = some c → rc.platformImage deps = c.Image) ∧
    (rc.Run.Job.Container = none →
      ∀ (i : Nat) (l : String), rc.Run.Job.RunsOn[i]? = some l →
        (∀ (j : Nat) (l1 : String), j < i → rc.Run.Job.RunsOn[j]? = some l1 →
          rc.Config.Platforms.at (deps.ToLower (rc.ExprEval.Interpolate l1)) = "") →
        rc.Config.Platforms.at (deps.ToLower (rc.ExprEval.Interpolate l)) ≠ "" →
        rc.platformImage deps
          = rc.Config.Platforms.at (deps.ToLower (rc.ExprEval.Interpolate l))) := by
  refine ⟨?_, ?_, ?_, ?_⟩
  · intro himg
    have hen : rc.isEnabled deps = false := by
      unfold RunContext.isEnabled
      simp [himg]
    refine ⟨hen, ?_⟩
    simp [RunContext.Executor, common.Executor.If, hen]
  · intro hc hall
    unfold RunContext.platformImage
    rw [hc]
    exact platformImageLoop_none deps rc _ hall
  · intro c hc
    unfold RunContext.platformImage
    rw [hc]
  · intro hc i l hl hbefore hne
    unfold RunContext.platformImage
    rw [hc]
    exact platformImageLoop_first deps rc _ i l hl hbefore hne

/-- The witness of C3: a job with a step and a truthy condition whose two
labels `windows-latest` and `macOS-latest` both miss the platform table,
which holds `ubuntu-latest` only (no image, job skipped, nothing ran); a job
with the container `alpine:3`; and a job with a step whose second label
`Ubuntu-Latest` is the first that is configured. -/
theorem platformImage_unresolved_witness :
    (unmappedContext.Run.Job.RunsOn = ["windows-latest", "macOS-latest"] ∧
      unmappedContext.Config.Platforms.lookup "ubuntu-latest" = some "node:12" ∧
      unmappedContext.Run.Job.Steps.length = 1 ∧
      (unmappedContext.EvalBool unmappedContext.Run.Job.If).1 = true) ∧
      unmappedContext.platformImage plainDeps = "" ∧
      unmappedContext.isEnabled plainDeps = false ∧
      RunContext.Executor plainDeps unmappedContext unmappedContext = (unmappedContext, none) ∧
      containerContext.platformImage plainDeps = "alpine:3" ∧
      (ubuntuContext [runStep "" "echo hi"]).platformImage plainDeps = "node:12" :=
  have h0 := (platformImage_unresolved plainDeps unmappedContext unmappedContext).2.1 rfl
    (by
      intro l hl
      have hl2 : l ∈ ["windows-latest", "macOS-latest"] := hl
      simp only [List.mem_cons, List.mem_nil_iff, or_false] at hl2
      rcases hl2 with h | h <;> subst h <;> decide)
  have h1 := (platformImage_unresolved plainDeps unmappedContext unmappedContext).1 h0
  ⟨⟨rfl, by decide, rfl, by decide⟩, h0, h1.1, h1.2,
   (platformImage_unresolved plainDeps unmappedContext containerContext).2.2.1 _ rfl,
   ((platformImage_unresolved plainDeps unmappedContext
      (ubuntuContext [runStep "" "echo hi"])).2.2.2 rfl 1
      "Ubuntu-Latest" rfl
      (by
        intro j l1 hj hl1
        have hj0 : j = 0 := by omega
        subst hj0
        have : l1 = "self-hosted" := by simpa [ubuntuContext, plainJob] using hl1.symm
        subst this
        decide)
      (by decide)).trans (by decide)⟩

theorem pipeline_gate_closed (e : common.Executor) (rest : List common.Executor)
    (rc : RunContext) :
    common.NewPipelineExecutor (common.Executor.IfBool e false :: rest) rc
      = common.NewPipelineExecutor rest rc := rfl

theorem pipeline_gate_open (deps : Deps) (ev : Event) (rest : List common.Executor)
    (rc : RunContext) :
    common.NewPipelineExecutor (common.Executor.IfBool (containerOp deps ev) true :: rest) rc
      = match deps.engine rc.trace ev with
        | none => common.NewPipelineExecutor rest (rc.record ev)
        | some err => (rc.record ev, some err) := by
  cases h : deps.engine rc.trace ev <;>
    simp [common.NewPipelineExecutor, common.Executor.IfBool, common.Executor.If, containerOp, h]

/-- A pipeline of container operations, each behind a boolean gate: only the
trace changes; what is appended is a leading piece of the enabled
operations, and all of them when the pipeline succeeds. -/
theorem gatedOps_run (deps : Deps) :
    ∀ (ops : List (Bool × Event)) (rc : RunContext),
      ∃ ran : List Event,
        ran <+: (ops.filter (·.1)).map (·.2) ∧
        (common.NewPipelineExecutor
          (ops.map fun ge => common.Executor.IfBool (containerOp deps ge.2) ge.1) rc).1
          = { rc with trace := rc.trace ++ ran } ∧
        ((common.NewPipelineExecutor
          (ops.map fun ge => common.Executor.IfBool (containerOp deps ge.2) ge.1) rc).2 = none →
          ran = (ops.filter (·.1)).map (·.2))
  | [], rc => ⟨[], List.prefix_refl _, by simp [common.NewPipelineExecutor], fun _ => rfl⟩
  | (false, ev) :: rest, rc => by
    obtain ⟨ran, hpre, hst, hall⟩ := gatedOps_run deps rest rc
    refine ⟨ran, ?_, ?_, ?_⟩
    · simpa using hpre
    · rw [List.map_cons, pipeline_gate_closed]
      exact hst
    · rw [List.map_cons, pipeline_gate_closed]
      simpa using hall
  | (true, ev) :: rest, rc => by
    cases hen : deps.engine rc.trace ev with
    | some err =>
      refine ⟨[ev], ?_, ?_, ?_⟩
      · simp
      · rw [List.map_cons, pipeline_gate_open, hen]
        rfl
      · rw [List.map_cons, pipeline_gate_open, hen]
        intro h
        cases h
    | none =>
      obtain ⟨ran, hpre, hst, hall⟩ := gatedOps_run deps rest (rc.record ev)
      refine ⟨ev :: ran, ?_, ?_, ?_⟩
      · simpa using hpre
      · rw [List.map_cons, pipeline_gate_open, hen]
        show (common.NewPipelineExecutor _ (rc.record ev)).1 = _
        rw [hst]
        simp [RunContext.record]
      · rw [List.map_cons, pipeline_gate_open, hen]
        intro h
        rw [hall h]
        simp

theorem localCheckoutLoop_found (deps : Deps) (ghc : githubContext) :
    ∀ steps : List Step,
      (localCheckoutLoop deps ghc steps).2 = true ↔
        ∃ step ∈ steps, ghc.isLocalCheckout deps step = true
  | [] => by simp [localCheckoutLoop]
  | step :: rest => by
    unfold localCheckoutLoop
    cases h : ghc.isLocalCheckout deps step with
    | true => simp [h]
    | false =>
      simp only [Bool.false_eq_true, if_false, List.mem_cons, exists_eq_or_imp, h, false_or]
      exact localCheckoutLoop_found deps ghc rest

theorem workspaceCopy_gate (deps : Deps) (rc : RunContext) :
    (rc.workspaceCopy deps).2 = true ↔
      rc.Config.BindWorkdir = false ∧
        ∃ step ∈ rc.Run.Job.Steps, (rc.getGithubContext deps).isLocalCheckout deps step = true := by
  unfold RunContext.workspaceCopy
  cases hb : rc.Config.BindWorkdir with
  | true => simp
  | false =>
    simp only [Bool.not_false, if_true, true_and]
    exact localCheckoutLoop_found deps _ _

/-- The job-container start pipeline: after the ghost `jobStage` event the
trace grows by a leading piece of the enabled container operations, and by
all of them when the pipeline succeeds. -/
theorem startJobContainer_trace (deps : Deps) (rc0 rc : RunContext) :
    ∃ ran : List Event,
      (rc0.startJobContainer deps rc).1.trace = rc.trace ++ Event.jobStage :: ran ∧
      ran <+:
        (([(true, Event.job (ContainerOp.Pull rc.Config.ForcePull)),
           (!rc.Config.ReuseContainers, Event.job ContainerOp.Remove),
           (true, Event.job ContainerOp.Create),
           (true, Event.job (ContainerOp.Start false)),
           ((rc.workspaceCopy deps).2,
             Event.job (ContainerOp.CopyDir (rc.workspaceCopy deps).1
               (rc.Config.Workdir ++ "/.") false)),
           ((rc.workspaceCopy deps).2,
             Event.job (ContainerOp.ChangeRemoteToHttps (rc.workspaceCopy deps).1)),
           (true, Event.job (ContainerOp.Copy "/github/"
              [{ Name := "workflow/event.json", Mode := 0o644, Body := rc.EventJSON },
               { Name := "home/.act", Mode := 0o644, Body := "" }]))] :
            List (Bool × Event)).filter (·.1)).map (·.2) ∧
      ((rc0.startJobContainer deps rc).2 = none →
        ran =
          (([(true, Event.job (ContainerOp.Pull rc.Config.ForcePull)),
           (!rc.Config.ReuseContainers, Event.job ContainerOp.Remove),
           (true, Event.job ContainerOp.Create),
           (true, Event.job (ContainerOp.Start false)),
           ((rc.workspaceCopy deps).2,
             Event.job (ContainerOp.CopyDir (rc.workspaceCopy deps).1
               (rc.Config.Workdir ++ "/.") false)),
           ((rc.workspaceCopy deps).2,
             Event.job (ContainerOp.ChangeRemoteToHttps (rc.workspaceCopy deps).1)),
           (true, Event.job (ContainerOp.Copy "/github/"
              [{ Name := "workflow/event.json", Mode := 0o644, Body := rc.EventJSON },
               { Name := "home/.act", Mode := 0o644, Body := "" }]))] :
            List (Bool × Event)).filter (·.1)).map (·.2)) := by
  obtain ⟨rc1, hrun, htr⟩ : ∃ rc1 : RunContext,
      rc0.startJobContainer deps rc
        = common.NewPipelineExecutor
          (([(true, Event.job (ContainerOp.Pull rc.Config.ForcePull)),
           (!rc.Config.ReuseContainers, Event.job ContainerOp.Remove),
           (true, Event.job ContainerOp.Create),
           (true, Event.job (ContainerOp.Start false)),
           ((rc.workspaceCopy deps).2,
             Event.job (ContainerOp.CopyDir (rc.workspaceCopy deps).1
               (rc.Config.Workdir ++ "/.") false)),
           ((rc.workspaceCopy deps).2,
             Event.job (ContainerOp.ChangeRemoteToHttps (rc.workspaceCopy deps).1)),
           (true, Event.job (ContainerOp.Copy "/github/"
              [{ Name := "workflow/event.json", Mode := 0o644, Body := rc.EventJSON },
               { Name := "home/.act", Mode := 0o644, Body := "" }]))] :
            List (Bool × Event)).map
            fun ge => common.Executor.IfBool (containerOp deps ge.2) ge.1) rc1 ∧
      rc1.trace = rc.trace ++ [Event.jobStage] := ⟨_, rfl, rfl⟩
  obtain ⟨ran, hpre, hst, hall⟩ := gatedOps_run deps _ rc1
  refine ⟨ran, ?_, hpre, ?_⟩
  · rw [hrun, hst]
    show rc1.trace ++ ran = _
    rw [htr]
    simp
  · intro h
    rw [hrun] at h
    exact hall h

/-- A pipeline of gated container operations gets past every enabled
operation that the driver accepts, and runs the one after them. -/
theorem gatedOps_progress (deps : Deps) :
    ∀ (ops : List (Bool × Event)) (rc : RunContext) (done : List Event) (next : Event)
      (more : List Event),
      (ops.filter (·.1)).map (·.2) = done ++ next :: more →
      driverAccepts deps rc.trace done = true →
      ∃ tail : List Event,
        (common.NewPipelineExecutor
          (ops.map fun ge => common.Executor.IfBool (containerOp deps ge.2) ge.1) rc).1.trace
          = rc.trace ++ done ++ next :: tail
  | [], rc, done, next, more, h, _ => by simp at h
  | (false, ev) :: rest, rc, done, next, more, h, hacc => by
    rw [List.map_cons, pipeline_gate_closed]
    exact gatedOps_progress deps rest rc done next more (by simpa using h) hacc
  | (true, ev) :: rest, rc, [], next, more, h, _ => by
    rw [List.map_cons, pipeline_gate_open]
    have hev : ev = next := by
      simp only [List.filter_cons_of_pos, List.map_cons, List.nil_append] at h
      exact (List.cons.inj h).1
    subst hev
    cases deps.engine rc.trace ev with
    | some err => exact ⟨[], by simp [RunContext.record]⟩
    | none =>
      obtain ⟨ran, _, hst, _⟩ := gatedOps_run deps rest (rc.record ev)
      refine ⟨ran, ?_⟩
      show (common.NewPipelineExecutor _ (rc.record ev)).1.trace = _
      rw [hst]
      simp [RunContext.record]
  | (true, ev) :: rest, rc, d :: done, next, more, h, hacc => by
    simp only [List.filter_cons_of_pos, List.map_cons, List.cons_append] at h
    obtain ⟨hev, hrest⟩ := List.cons.inj h
    subst hev
    simp only [driverAccepts, Bool.and_eq_true, Option.isNone_iff_eq_none] at hacc
    rw [List.map_cons, pipeline_gate_open, hacc.1]
    obtain ⟨tail, htail⟩ :=
      gatedOps_progress deps rest (rc.record ev) done next more hrest hacc.2
    refine ⟨tail, ?_⟩
    show (common.NewPipelineExecutor _ (rc.record ev)).1.trace = _
    rw [htail]
    simp [RunContext.record]

/-- The job-container start is the pipeline of its gated stages, run on the
run context that has recorded the ghost `jobStage` event. -/
theorem startJobContainer_gated (deps : Deps) (rc0 rc : RunContext) :
    ∃ rc1 : RunContext,
      rc0.startJobContainer deps rc
        = common.NewPipelineExecutor
          ((rc.jobStartOps deps).map
            fun ge => common.Executor.IfBool (containerOp deps ge.2) ge.1) rc1 ∧
      rc1.trace = rc.trace ++ [Event.jobStage] :=
  ⟨_, rfl, rfl⟩

/-- With the copy gate open, the enabled stages are the stages before the
copy, the copy, the rewrite and the event-file copy. -/
theorem jobStartOps_open (deps : Deps) (rc : RunContext)
    (hgate : (rc.workspaceCopy deps).2 = true) :
    ((rc.jobStartOps deps).filter (·.1)).map (·.2)
      = rc.startOps ++
          [Event.job (ContainerOp.CopyDir (rc.workspaceCopy deps).1
              (rc.Config.Workdir ++ "/.") false),
           Event.job (ContainerOp.ChangeRemoteToHttps (rc.workspaceCopy deps).1),
           Event.job (ContainerOp.Copy "/github/"
             [{ Name := "workflow/event.json", Mode := 0o644, Body := rc.EventJSON },
              { Name := "home/.act", Mode := 0o644, Body := "" }])] := by
  unfold RunContext.jobStartOps RunContext.startOps
  rw [hgate]
  cases rc.Config.ReuseContainers <;> rfl

/-- C5, as the code has it.  In the job-container start pipeline the
workspace copy stage and the remote-URL rewrite stage are gated on
`copyWorkspace`, which is set only when the configuration does not bind the
host working directory and some step of the job is a local checkout
(`isLocalCheckout` against the projected context).  For every run context:
with `BindWorkdir` set, or with no local-checkout step, neither stage runs;
with `BindWorkdir` unset and a local-checkout step, the copy stage runs once
the driver has accepted the operations before it (pull, remove unless
containers are reused, create, start), and the rewrite stage runs once it
has accepted the copy too, whatever happens to the stage after them. -/
theorem startJobContainer_copy_gate (deps : Deps) (rc0 rc : RunContext) :
    ∃ ran : List Event,
      (rc0.startJobContainer deps rc).1.trace = rc.trace ++ Event.jobStage :: ran ∧
      ((rc.Config.BindWorkdir = true ∨
          ∀ step ∈ rc.Run.Job.Steps,
            (rc.getGithubContext deps).isLocalCheckout deps step = false) →
        ∀ ev ∈ ran, isCopyDir ev = false ∧ isChangeRemote ev = false) ∧
      (rc.Config.BindWorkdir = false →
        (∃ step ∈ rc.Run.Job.Steps,
          (rc.getGithubContext deps).isLocalCheckout deps step = true) →
        (driverAccepts deps (rc.trace ++ [Event.jobStage]) rc.startOps = true →
          Event.job (ContainerOp.CopyDir (rc.workspaceCopy deps).1
            (rc.Config.Workdir ++ "/.") false) ∈ ran) ∧
        (driverAccepts deps (rc.trace ++ [Event.jobStage])
            (rc.startOps ++
              [Event.job (ContainerOp.CopyDir (rc.workspaceCopy deps).1
                (rc.Config.Workdir ++ "/.") false)]) = true →
          Event.job (ContainerOp.CopyDir (rc.workspaceCopy deps).1
            (rc.Config.Workdir ++ "/.") false) ∈ ran ∧
          Event.job (ContainerOp.ChangeRemoteToHttps (rc.workspaceCopy deps).1) ∈ ran)) := by
  obtain ⟨ran, htrace, hpre, _⟩ := startJobContainer_trace deps rc0 rc
  refine ⟨ran, htrace, ?_, ?_⟩
  · intro hclosed ev hev
    have hgate : (rc.workspaceCopy deps).2 = false := by
      cases hg : (rc.workspaceCopy deps).2 with
      | false => rfl
      | true =>
        obtain ⟨hb, step, hstep, hloc⟩ := (workspaceCopy_gate deps rc).mp hg
        rcases hclosed with h | h
        · rw [hb] at h; cases h
        · rw [h step hstep] at hloc; cases hloc
    have hmem := hpre.subset hev
    rw [hgate] at hmem
    cases hreuse : rc.Config.ReuseContainers with
    | false =>
      simp only [hreuse, Bool.not_false, List.filter, List.map, List.mem_cons,
        List.mem_nil_iff, or_false] at hmem
      rcases hmem with h | h | h | h | h <;> subst h <;> exact ⟨rfl, rfl⟩
    | true =>
      simp only [hreuse, Bool.not_true, List.filter, List.map, List.mem_cons,
        List.mem_nil_iff, or_false] at hmem
      rcases hmem with h | h | h | h <;> subst h <;> exact ⟨rfl, rfl⟩
  · intro hb hstep
    have hgate : (rc.workspaceCopy deps).2 = true :=
      (workspaceCopy_gate deps rc).mpr ⟨hb, hstep⟩
    obtain ⟨rc1, hrun, htr1⟩ := startJobContainer_gated deps rc0 rc
    have hopen := jobStartOps_open deps rc hgate
    constructor
    · intro hacc
      rw [← htr1] at hacc
      obtain ⟨tail, htail⟩ := gatedOps_progress deps (rc.jobStartOps deps) rc1 rc.startOps _ _
        hopen hacc
      rw [← hrun, htrace, htr1, List.append_assoc, List.append_assoc] at htail
      have hran := List.append_cancel_left htail
      simp only [List.singleton_append, List.cons.injEq, true_and] at hran
      rw [hran]
      simp
    · intro hacc
      rw [← htr1] at hacc
      have hopen2 : ((rc.jobStartOps deps).filter (·.1)).map (·.2)
          = (rc.startOps ++
              [Event.job (ContainerOp.CopyDir (rc.workspaceCopy deps).1
                (rc.Config.Workdir ++ "/.") false)]) ++
            Event.job (ContainerOp.ChangeRemoteToHttps (rc.workspaceCopy deps).1) ::
              [Event.job (ContainerOp.Copy "/github/"
                [{ Name := "workflow/event.json", Mode := 0o644, Body := rc.EventJSON },
                 { Name := "home/.act", Mode := 0o644, Body := "" }])] := by
        rw [hopen]
        simp
      obtain ⟨tail, htail⟩ := gatedOps_progress deps (rc.jobStartOps deps) rc1 _ _ _
        hopen2 hacc
      rw [← hrun, htrace, htr1, List.append_assoc, List.append_assoc] at htail
      have hran := List.append_cancel_left htail
      simp only [List.singleton_append, List.cons.injEq, true_and] at hran
      rw [hran]
      simp

/-- The witness of C5: a job with a local checkout step.  With the working
directory not bound and a driver that accepts everything but the last stage
of the start pipeline, the pipeline fails and both stages are in the trace;
with the working directory bound, neither is. -/
theorem startJobContainer_copy_gate_witness :
    ((ubuntuContext [checkoutStep]).Config.BindWorkdir = false ∧
      ((ubuntuContext [checkoutStep]).startJobContainer copyFailsDeps
          (ubuntuContext [checkoutStep])).2 = some (Err.error "copy failed") ∧
      ∃ ran : List Event,
        ((ubuntuContext [checkoutStep]).startJobContainer copyFailsDeps
            (ubuntuContext [checkoutStep])).1.trace
          = (ubuntuContext [checkoutStep]).trace ++ Event.jobStage :: ran ∧
        Event.job (ContainerOp.CopyDir "/github/workspace" "/src/." false) ∈ ran ∧
        Event.job (ContainerOp.ChangeRemoteToHttps "/github/workspace") ∈ ran) ∧
    ((boundContext [checkoutStep]).Config.BindWorkdir = true ∧
      ∃ ran : List Event,
        ((boundContext [checkoutStep]).startJobContainer plainDeps
            (boundContext [checkoutStep])).1.trace
          = (boundContext [checkoutStep]).trace ++ Event.jobStage :: ran ∧
        ∀ ev ∈ ran, isCopyDir ev = false ∧ isChangeRemote ev = false) := by
  obtain ⟨ran, htrace, _, hopen⟩ := startJobContainer_copy_gate copyFailsDeps
    (ubuntuContext [checkoutStep]) (ubuntuContext [checkoutStep])
  have h1 := (hopen rfl ⟨checkoutStep, by simp [ubuntuContext, plainJob], by decide⟩).2
    (by decide)
  have h0 := (hopen rfl ⟨checkoutStep, by simp [ubuntuContext, plainJob], by decide⟩).1
    (by decide)
  obtain ⟨ran2, htrace2, hclosed, _⟩ := startJobContainer_copy_gate plainDeps
    (boundContext [checkoutStep]) (boundContext [checkoutStep])
  exact ⟨⟨rfl, by decide, ran, htrace, h0, h1.2⟩,
    ⟨rfl, ran2, htrace2, hclosed (Or.inl rfl)⟩⟩

/-- C5 as stated fails twice over.  With the working directory not bound and
a job whose only step runs a command, the start pipeline succeeds and runs
neither the copy stage nor the rewrite stage.  And with the working
directory not bound, a job with a local checkout step and a driver that
fails the pull, the pipeline stops at the pull and runs neither stage. -/
theorem startJobContainer_no_copy_without_checkout :
    ((ubuntuContext [runStep "" "echo hi"]).Config.BindWorkdir = false ∧
      ((ubuntuContext [runStep "" "echo hi"]).startJobContainer plainDeps
          (ubuntuContext [runStep "" "echo hi"])).2 = none ∧
      ((ubuntuContext [runStep "" "echo hi"]).startJobContainer plainDeps
          (ubuntuContext [runStep "" "echo hi"])).1.trace
        = [Event.jobStage,
           Event.job (ContainerOp.Pull false),
           Event.job ContainerOp.Remove,
           Event.job ContainerOp.Create,
           Event.job (ContainerOp.Start false),
           Event.job (ContainerOp.Copy "/github/"
             [{ Name := "workflow/event.json", Mode := 0o644, Body := "" },
              { Name := "home/.act", Mode := 0o644, Body := "" }])] ∧
      ∀ ev ∈ ((ubuntuContext [runStep "" "echo hi"]).startJobContainer plainDeps
          (ubuntuContext [runStep "" "echo hi"])).1.trace,
        isCopyDir ev = false ∧ isChangeRemote ev = false) ∧
    ((ubuntuContext [checkoutStep]).Config.BindWorkdir = false ∧
      ((ubuntuContext [checkoutStep]).getGithubContext pullFailsDeps).isLocalCheckout
          pullFailsDeps checkoutStep = true ∧
      ((ubuntuContext [checkoutStep]).startJobContainer pullFailsDeps
          (ubuntuContext [checkoutStep])).2 = some (Err.error "pull failed") ∧
      ((ubuntuContext [checkoutStep]).startJobContainer pullFailsDeps
          (ubuntuContext [checkoutStep])).1.trace
        = [Event.jobStage, Event.job (ContainerOp.Pull false)]) := by
  decide

theorem assignStepIDs_getElem? :
    ∀ (steps : List Step) (i k : Nat) (declared : Step), steps[k]? = some declared →
      (assignStepIDs i steps)[k]? = some (withStepID (i + k) declared)
  | [], _, _, _, h => by simp at h
  | st :: rest, i, 0, declared, h => by
    simp at h
    subst h
    simp [assignStepIDs]
  | st :: rest, i, k + 1, declared, h => by
    have ih := assignStepIDs_getElem? rest (i + 1) k declared (by simpa using h)
    simp only [assignStepIDs, List.getElem?_cons_succ, ih]
    have : i + 1 + k = i + (k + 1) := by omega
    rw [this]

/-- The stages of the job pipeline around the executor of the step at
position `k`. -/
theorem stages_split (deps : Deps) (rc0 : RunContext) (k : Nat) (step : Step)
    (hstep : (assignStepIDs 0 rc0.Run.Job.Steps)[k]? = some step) :
    ∃ post : List common.Executor,
      rc0.stages deps
        = (rc0.stages deps).take (3 + k) ++ RunContext.newStepExecutor deps step :: post ∧
      (rc0.stages deps).take (3 + k + 1)
        = (rc0.stages deps).take (3 + k) ++ [RunContext.newStepExecutor deps step] := by
  have hlt : 3 + k < (rc0.stages deps).length := by
    have := ( List.getElem?_eq_some_iff.mp hstep).1
    simp [RunContext.stages]
    omega
  have hget : (rc0.stages deps)[3 + k]? = some (RunContext.newStepExecutor deps step) := by
    unfold RunContext.stages
    rw [List.append_assoc, List.getElem?_append_right (by simp)]
    simp only [List.length_cons, List.length_nil, Nat.zero_add, Nat.reduceAdd,
      Nat.add_sub_cancel_left]
    rw [List.getElem?_append_left (by
      simpa using ( List.getElem?_eq_some_iff.mp hstep).1)]
    simp [hstep]
  have hel : (rc0.stages deps)[3 + k] = RunContext.newStepExecutor deps step := by
    have := List.getElem?_eq_getElem hlt
    rw [hget] at this
    exact (Option.some.inj this).symm
  refine ⟨(rc0.stages deps).drop (3 + k + 1), ?_, ?_⟩
  · rw [← hel, List.getElem_cons_drop, List.take_append_drop]
  · rw [← hel, List.take_succ, List.getElem?_eq_getElem hlt]
    rfl

theorem newStepExecutor_failure (deps : Deps) (step : Step) (rc : RunContext) (e : Err)
    (hcond : ((rc.enterStep deps step).EvalBool step.If).1 = true)
    (herr : (deps.stepExecutor step (rc.enterStep deps step)).err = some e) :
    (RunContext.newStepExecutor deps step rc).2 = some e ∧
    (RunContext.newStepExecutor deps step rc).1.CurrentStep = step.ID ∧
    (RunContext.newStepExecutor deps step rc).1.trace
      = rc.trace ++ [Event.stepStage step.ID, Event.stepAction step.ID] ∧
    (RunContext.newStepExecutor deps step rc).1.StepResults
      = ((rc.StepResults.insert step.ID { Success := true, Outputs := ∅ }).insert step.ID
          { Success := true,
            Outputs := (deps.stepExecutor step (rc.enterStep deps step)).Outputs }).insert
          step.ID
          { Success := false,
            Outputs := (deps.stepExecutor step (rc.enterStep deps step)).Outputs } := by
  have hcur : (rc.enterStep deps step).CurrentStep = step.ID := rfl
  have hres : (rc.enterStep deps step).StepResults
      = rc.StepResults.insert step.ID { Success := true, Outputs := ∅ } := rfl
  have htr : (rc.enterStep deps step).trace = rc.trace ++ [Event.stepStage step.ID] := rfl
  unfold RunContext.newStepExecutor
  generalize rc.enterStep deps step = entered at hcond herr hcur hres htr ⊢
  have hlook : AList.lookup entered.CurrentStep entered.StepResults
      = some { Success := true, Outputs := ∅ } := by
    rw [hcur, hres, AList.lookup_insert]
  have hafter : entered.afterAction step.ID (deps.stepExecutor step entered)
      = { entered with
          trace := entered.trace ++ [Event.stepAction step.ID],
          Env := (deps.stepExecutor step entered).Env,
          ExtraPath := (deps.stepExecutor step entered).ExtraPath,
          StepResults := entered.StepResults.insert entered.CurrentStep
            { Success := true, Outputs := (deps.stepExecutor step entered).Outputs } } := by
    simp only [RunContext.afterAction, RunContext.record]
    rw [hlook]
  have hlook2 : AList.lookup
      (entered.afterAction step.ID (deps.stepExecutor step entered)).CurrentStep
      (entered.afterAction step.ID (deps.stepExecutor step entered)).StepResults
      = some { Success := true, Outputs := (deps.stepExecutor step entered).Outputs } := by
    rw [hafter]
    exact AList.lookup_insert _
  simp only [hcond, Bool.not_true, Bool.false_eq_true, if_false, herr, hlook2]
  rw [hafter]
  simp [hcur, hres, htr]

/-- A pipeline whose units only append events that are neither the start of
a step executor nor the teardown, appends only such events. -/
theorem pipeline_quiet :
    ∀ (es : List common.Executor),
      (∀ e ∈ es, ∀ rc : RunContext, ∃ added : List Event,
        (e rc).1.trace = rc.trace ++ added ∧
        ∀ ev ∈ added, isStepStage ev = false ∧ ev ≠ Event.teardownStage) →
      ∀ rc : RunContext, ∃ added : List Event,
        (common.NewPipelineExecutor es rc).1.trace = rc.trace ++ added ∧
        ∀ ev ∈ added, isStepStage ev = false ∧ ev ≠ Event.teardownStage
  | [], _, rc => ⟨[], by simp [common.NewPipelineExecutor], by simp⟩
  | e :: rest, h, rc => by
    obtain ⟨added1, htr1, hq1⟩ := h e (by simp) rc
    simp only [common.NewPipelineExecutor]
    rcases he : e rc with ⟨rc1, _ | err⟩
    · rw [he] at htr1
      obtain ⟨added2, htr2, hq2⟩ :=
        pipeline_quiet rest (fun e1 h1 => h e1 ( List.mem_cons_of_mem _ h1)) rc1
      refine ⟨added1 ++ added2, ?_, ?_⟩
      · show (common.NewPipelineExecutor rest rc1).1.trace = _
        rw [htr2, htr1, List.append_assoc]
      · intro ev hev
        rcases List.mem_append.mp hev with h1 | h1
        · exact hq1 ev h1
        · exact hq2 ev h1
    · rw [he] at htr1
      exact ⟨added1, htr1, hq1⟩

theorem startDINDContainer_quiet (deps : Deps) (rc : RunContext) :
    ∃ added : List Event,
      (RunContext.startDINDContainer deps rc).1.trace = rc.trace ++ added ∧
      ∀ ev ∈ added, isStepStage ev = false ∧ ev ≠ Event.teardownStage := by
  obtain ⟨rc1, hrun, htr⟩ : ∃ rc1 : RunContext,
      RunContext.startDINDContainer deps rc
        = common.NewPipelineExecutor
          (([(true, Event.dind (ContainerOp.Pull false)),
             (!rc.Config.ReuseContainers, Event.dind ContainerOp.Remove),
             (true, Event.dind ContainerOp.Create),
             (true, Event.dind (ContainerOp.Start false))] : List (Bool × Event)).map
            fun ge => common.Executor.IfBool (containerOp deps ge.2) ge.1) rc1 ∧
      rc1.trace = rc.trace ++ [Event.dindStage] := ⟨_, rfl, rfl⟩
  obtain ⟨ran, hpre, hst, _⟩ := gatedOps_run deps _ rc1
  refine ⟨Event.dindStage :: ran, ?_, ?_⟩
  · rw [hrun, hst]
    show rc1.trace ++ ran = _
    rw [htr]
    simp
  · intro ev hev
    rcases List.mem_cons.mp hev with h | h
    · subst h
      exact ⟨rfl, by simp⟩
    · have hmem := hpre.subset h
      cases hreuse : rc.Config.ReuseContainers with
      | false =>
        simp only [hreuse, Bool.not_false, List.filter, List.map, List.mem_cons,
          List.mem_nil_iff, or_false] at hmem
        rcases hmem with h | h | h | h <;> subst h <;> exact ⟨rfl, by simp⟩
      | true =>
        simp only [hreuse, Bool.not_true, List.filter, List.map, List.mem_cons,
          List.mem_nil_iff, or_false] at hmem
        rcases hmem with h | h | h <;> subst h <;> exact ⟨rfl, by simp⟩

theorem startJobContainer_quiet (deps : Deps) (rc0 rc : RunContext) :
    ∃ added : List Event,
      (rc0.startJobContainer deps rc).1.trace = rc.trace ++ added ∧
      ∀ ev ∈ added, isStepStage ev = false ∧ ev ≠ Event.teardownStage := by
  obtain ⟨ran, htrace, hpre, _⟩ := startJobContainer_trace deps rc0 rc
  refine ⟨Event.jobStage :: ran, htrace, ?_⟩
  intro ev hev
  rcases List.mem_cons.mp hev with h | h
  · subst h
    exact ⟨rfl, by simp⟩
  · have hmem := hpre.subset h
    simp only [List.mem_map, List.mem_filter, List.mem_cons, List.mem_nil_iff, or_false] at hmem
    obtain ⟨ge, ⟨hge, _⟩, rfl⟩ := hmem
    rcases hge with h | h | h | h | h | h | h <;> subst h <;> exact ⟨rfl, by simp⟩

/-- A step executor appends the start of the step and then nothing or the
call of its action. -/
theorem newStepExecutor_trace (deps : Deps) (step : Step) (rc : RunContext) :
    ∃ tail : List Event,
      (RunContext.newStepExecutor deps step rc).1.trace
        = rc.trace ++ Event.stepStage step.ID :: tail ∧
      ∀ ev ∈ tail, ev = Event.stepAction step.ID := by
  have htr : (rc.enterStep deps step).trace = rc.trace ++ [Event.stepStage step.ID] := rfl
  unfold RunContext.newStepExecutor
  generalize rc.enterStep deps step = entered at htr ⊢
  have hafter : (entered.afterAction step.ID (deps.stepExecutor step entered)).trace
      = entered.trace ++ [Event.stepAction step.ID] := by
    unfold RunContext.afterAction
    dsimp only
    split <;> rfl
  dsimp only
  split
  · exact ⟨[], by simp [htr], by simp⟩
  · split
    · exact ⟨[Event.stepAction step.ID], by simp [hafter, htr], by simp⟩
    · split
      · exact ⟨[Event.stepAction step.ID], by simp [hafter, htr], by simp⟩
      · exact ⟨[Event.stepAction step.ID], by simp [hafter, htr], by simp⟩

/-- A pipeline of step executors that succeeds has started each of them
once, and has not run the teardown. -/
theorem stepExecutors_count (deps : Deps) :
    ∀ (steps : List Step) (rc : RunContext),
      (common.NewPipelineExecutor (steps.map (RunContext.newStepExecutor deps)) rc).2 = none →
      ∃ added : List Event,
        (common.NewPipelineExecutor (steps.map (RunContext.newStepExecutor deps)) rc).1.trace
          = rc.trace ++ added ∧
        Event.teardownStage ∉ added ∧
        (added.filter isStepStage).length = steps.length
  | [], rc, _ => ⟨[], by simp [common.NewPipelineExecutor], by simp, rfl⟩
  | step :: rest, rc, hok => by
    obtain ⟨tail, htr1, htail⟩ := newStepExecutor_trace deps step rc
    simp only [List.map_cons, common.NewPipelineExecutor] at hok ⊢
    rcases he : RunContext.newStepExecutor deps step rc with ⟨rc1, _ | err⟩
    · rw [he] at htr1 hok
      obtain ⟨added2, htr2, hno2, hcount2⟩ := stepExecutors_count deps rest rc1 hok
      refine ⟨Event.stepStage step.ID :: tail ++ added2, ?_, ?_, ?_⟩
      · show (common.NewPipelineExecutor _ rc1).1.trace = _
        rw [htr2, htr1]
        simp
      · intro hmem
        rcases List.mem_append.mp hmem with h1 | h1
        · rcases List.mem_cons.mp h1 with h2 | h2
          · cases h2
          · cases htail _ h2
        · exact hno2 h1
      · have htailcount : (tail.filter isStepStage).length = 0 := by
          rw [List.length_eq_zero, List.filter_eq_nil_iff]
          intro ev hev
          rw [htail ev hev]
          simp [isStepStage]
        rw [List.filter_append, List.length_append, hcount2, List.filter_cons]
        simp only [isStepStage, if_true, List.length_cons, htailcount]
        omega
    · rw [he] at hok
      cases hok

theorem assignStepIDs_length :
    ∀ (steps : List Step) (i : Nat), (assignStepIDs i steps).length = steps.length
  | [], _ => rfl
  | _ :: rest, i => by simp [assignStepIDs, assignStepIDs_length rest (i + 1)]

/-- The stages before the step at position `k`: the matrix stage, the two
container starts, and the executors of the first `k` steps. -/
theorem stages_take (deps : Deps) (rc0 : RunContext) (k : Nat)
    (hk : k < rc0.Run.Job.Steps.length) :
    (rc0.stages deps).take (3 + k)
      = [fun rc => (rc.record Event.matrixStage, none),
         RunContext.startDINDContainer deps,
         rc0.startJobContainer deps]
        ++ ((assignStepIDs 0 rc0.Run.Job.Steps).take k).map (RunContext.newStepExecutor deps) := by
  unfold RunContext.stages
  rw [List.take_append_of_le_length (by
    simp [assignStepIDs_length]
    omega)]
  rw [show 3 + k = ([fun rc => (rc.record Event.matrixStage, none),
         RunContext.startDINDContainer deps,
         rc0.startJobContainer deps] : List common.Executor).length + k from rfl,
    List.take_append, List.map_take]

/-- The events of a run of the stages before step `k` that succeeds: no
teardown, and exactly `k` step executors started. -/
theorem beforeStep_trace (deps : Deps) (rc0 rc : RunContext) (k : Nat)
    (hk : k < rc0.Run.Job.Steps.length)
    (hbefore : (rc0.beforeStep deps k rc).2 = none) :
    ∃ added : List Event,
      (rc0.beforeStep deps k rc).1.trace = rc.trace ++ added ∧
      Event.teardownStage ∉ added ∧
      (added.filter isStepStage).length = k := by
  unfold RunContext.beforeStep at hbefore ⊢
  rw [stages_take deps rc0 k hk, pipeline_append] at hbefore ⊢
  obtain ⟨added1, htr1, hq1⟩ := pipeline_quiet
    [fun rc => (rc.record Event.matrixStage, none),
     RunContext.startDINDContainer deps,
     rc0.startJobContainer deps]
    (by
      intro e he rc1
      simp only [List.mem_cons, List.mem_nil_iff, or_false] at he
      rcases he with h | h | h
      · subst h
        exact ⟨[Event.matrixStage], rfl, by simp [isStepStage]⟩
      · subst h
        exact startDINDContainer_quiet deps rc1
      · subst h
        exact startJobContainer_quiet deps rc0 rc1) rc
  rcases hfirst : common.NewPipelineExecutor
      [fun rc => (rc.record Event.matrixStage, none),
       RunContext.startDINDContainer deps,
       rc0.startJobContainer deps] rc with ⟨rc1, _ | err⟩
  · rw [hfirst] at hbefore htr1
    dsimp only at hbefore htr1 ⊢
    obtain ⟨added2, htr2, hno2, hcount2⟩ := stepExecutors_count deps _ rc1 hbefore
    refine ⟨added1 ++ added2, ?_, ?_, ?_⟩
    · show (common.NewPipelineExecutor _ rc1).1.trace = _
      rw [htr2, htr1, List.append_assoc]
    · intro hmem
      rcases List.mem_append.mp hmem with h1 | h1
      · exact (hq1 _ h1).2 rfl
      · exact hno2 h1
    · have h1 : (added1.filter isStepStage).length = 0 := by
        rw [List.length_eq_zero, List.filter_eq_nil_iff]
        intro ev hev
        simp [(hq1 ev hev).1]
      rw [List.filter_append, List.length_append, h1, hcount2, List.length_take,
        assignStepIDs_length]
      omega
  · rw [hfirst] at hbefore
    cases hbefore

/-- C1, as the code has it.  In every job pipeline built by `Executor`, in a
run in which the job is enabled and the stages before step `k` succeed (the
executor of step `k` runs): if the condition of step `k` is truthy and its
action returns the error `e`, then the step executor sets
`StepResults[id of k].Success` to false and returns `e`; the pipeline ends
there with `e`, so no executor of a later step is started and the teardown
stage is not run (the run equals the run of the pipeline cut after step `k`,
its trace ends with the start and the action of step `k`, and the events of
the whole run hold no teardown and exactly `k + 1` starts of step
executors); and the results recorded under every identifier other than that
of step `k` are left as they were before step `k`. -/
theorem step_failure_aborts (deps : Deps) (rc0 rc : RunContext) (k : Nat) (declared : Step)
    (e : Err)
    (hk : rc0.Run.Job.Steps[k]? = some declared)
    (henabled : rc.isEnabled deps = true)
    (hbefore : (rc0.beforeStep deps k rc).2 = none)
    (hcond : (((rc0.beforeStep deps k rc).1.enterStep deps (withStepID k declared)).EvalBool
      (withStepID k declared).If).1 = true)
    (herr : (deps.stepExecutor (withStepID k declared)
      ((rc0.beforeStep deps k rc).1.enterStep deps (withStepID k declared))).err = some e) :
    (RunContext.newStepExecutor deps (withStepID k declared) (rc0.beforeStep deps k rc).1).2
        = some e ∧
      (RunContext.newStepExecutor deps (withStepID k declared)
          (rc0.beforeStep deps k rc).1).1.StepResults.lookup (withStepID k declared).ID
        = some
          { Success := false,
            Outputs := (deps.stepExecutor (withStepID k declared)
              ((rc0.beforeStep deps k rc).1.enterStep deps (withStepID k declared))).Outputs } ∧
      RunContext.Executor deps rc0 rc
        = RunContext.newStepExecutor deps (withStepID k declared) (rc0.beforeStep deps k rc).1 ∧
      RunContext.Executor deps rc0 rc = rc0.throughStep deps k rc ∧
      (RunContext.Executor deps rc0 rc).2 = some e ∧
      (RunContext.Executor deps rc0 rc).1.trace
        = (rc0.beforeStep deps k rc).1.trace ++
            [Event.stepStage (withStepID k declared).ID,
             Event.stepAction (withStepID k declared).ID] ∧
      (∀ id, id ≠ (withStepID k declared).ID →
        (RunContext.Executor deps rc0 rc).1.StepResults.lookup id
          = (rc0.beforeStep deps k rc).1.StepResults.lookup id) ∧
      (∃ added : List Event,
        (RunContext.Executor deps rc0 rc).1.trace = rc.trace ++ added ∧
        Event.teardownStage ∉ added ∧
        (added.filter isStepStage).length = k + 1) := by
  have hS : (assignStepIDs 0 rc0.Run.Job.Steps)[k]? = some (withStepID k declared) := by
    have := assignStepIDs_getElem? rc0.Run.Job.Steps 0 k declared hk
    simpa using this
  obtain ⟨post, hsplit, htake⟩ := stages_split deps rc0 k _ hS
  obtain ⟨h2, _, htr, hres⟩ :=
    newStepExecutor_failure deps (withStepID k declared) (rc0.beforeStep deps k rc).1 e hcond herr
  have hpair : common.NewPipelineExecutor ((rc0.stages deps).take (3 + k)) rc
      = ((rc0.beforeStep deps k rc).1, none) := Prod.ext rfl hbefore
  have hstepPair : RunContext.newStepExecutor deps (withStepID k declared)
      (rc0.beforeStep deps k rc).1
      = ((RunContext.newStepExecutor deps (withStepID k declared)
          (rc0.beforeStep deps k rc).1).1, some e) := Prod.ext rfl h2
  have hexec : RunContext.Executor deps rc0 rc
      = RunContext.newStepExecutor deps (withStepID k declared) (rc0.beforeStep deps k rc).1 := by
    unfold RunContext.Executor common.Executor.If
    rw [if_pos henabled, hsplit, pipeline_append, hpair]
    simp only [common.NewPipelineExecutor]
    rw [hstepPair]
  have hcut : rc0.throughStep deps k rc
      = RunContext.newStepExecutor deps (withStepID k declared) (rc0.beforeStep deps k rc).1 := by
    unfold RunContext.throughStep
    rw [htake, pipeline_append, hpair]
    simp only [common.NewPipelineExecutor]
    rw [hstepPair]
  refine ⟨h2, ?_, hexec, hexec.trans hcut.symm, ?_, ?_, ?_, ?_⟩
  · rw [hres]
    exact AList.lookup_insert _
  · rw [hexec]
    exact h2
  · rw [hexec]
    exact htr
  · intro id hid
    rw [hexec, hres, AList.lookup_insert_ne hid, AList.lookup_insert_ne hid,
      AList.lookup_insert_ne hid]
  · obtain ⟨added, hadd, hno, hcount⟩ := beforeStep_trace deps rc0 rc k
      ( List.getElem?_eq_some_iff.mp hk).1 hbefore
    refine ⟨added ++ [Event.stepStage (withStepID k declared).ID,
      Event.stepAction (withStepID k declared).ID], ?_, ?_, ?_⟩
    · rw [hexec, htr, hadd, List.append_assoc]
    · intro hmem
      rcases List.mem_append.mp hmem with h1 | h1
      · exact hno h1
      · simp at h1
    · rw [List.filter_append, List.length_append, hcount]
      rfl

/-- The witness of C1: three command steps without identifiers, the second
of which (`exit 1`, identifier `1`) fails.  The run ends with its error, its
result is recorded as failed, the result of step `0` stays successful, step
`2` never starts and the teardown never runs. -/
theorem step_failure_aborts_witness :
    (RunContext.Executor plainDeps failingContext failingContext).2
        = some (Err.error "exit status 1") ∧
      RunContext.Executor plainDeps failingContext failingContext
        = failingContext.throughStep plainDeps 1 failingContext ∧
      (RunContext.Executor plainDeps failingContext failingContext).1.StepResults.lookup "0"
        = some { Success := true, Outputs := ∅ } ∧
      (RunContext.Executor plainDeps failingContext failingContext).1.trace
        = (failingContext.beforeStep plainDeps 1 failingContext).1.trace ++
            [Event.stepStage "1", Event.stepAction "1"] ∧
      (failingContext.beforeStep plainDeps 1 failingContext).1.trace
        = [Event.matrixStage,
           Event.dindStage,
           Event.dind (ContainerOp.Pull false),
           Event.dind ContainerOp.Remove,
           Event.dind ContainerOp.Create,
           Event.dind (ContainerOp.Start false),
           Event.jobStage,
           Event.job (ContainerOp.Pull false),
           Event.job ContainerOp.Remove,
           Event.job ContainerOp.Create,
           Event.job (ContainerOp.Start false),
           Event.job (ContainerOp.Copy "/github/"
             [{ Name := "workflow/event.json", Mode := 0o644, Body := "" },
              { Name := "home/.act", Mode := 0o644, Body := "" }]),
           Event.stepStage "0",
           Event.stepAction "0"] :=
  have h := step_failure_aborts plainDeps failingContext failingContext 1
    (runStep "" "exit 1") (Err.error "exit status 1") rfl (by decide) (by decide) (by decide)
    (by decide)
  ⟨h.2.2.2.2.1, h.2.2.2.1, (h.2.2.2.2.2.2.1 "0" (by decide)).trans rfl,
    h.2.2.2.2.2.1, by decide⟩

/-- C1 as stated fails for a job of two steps that declare the same
identifier `a`: the stages before the second step succeed and leave the first
step's result, under `a`, successful; the second step fails; afterwards the
result under `a` reads failed, so the result recorded for the step before it
was not left unchanged. -/
theorem step_failure_overwrites_same_id :
    sameIdContext.Run.Job.Steps.map (fun step => step.ID) = ["a", "a"] ∧
      sameIdContext.isEnabled plainDeps = true ∧
      (sameIdContext.beforeStep plainDeps 1 sameIdContext).2 = none ∧
      (sameIdContext.beforeStep plainDeps 1 sameIdContext).1.StepResults.lookup "a"
        = some { Success := true, Outputs := ∅ } ∧
      (((sameIdContext.beforeStep plainDeps 1 sameIdContext).1.enterStep plainDeps
          (runStep "a" "exit 1")).EvalBool (runStep "a" "exit 1").If).1 = true ∧
      (plainDeps.stepExecutor (runStep "a" "exit 1")
          ((sameIdContext.beforeStep plainDeps 1 sameIdContext).1.enterStep plainDeps
            (runStep "a" "exit 1"))).err = some (Err.error "exit status 1") ∧
      (RunContext.Executor plainDeps sameIdContext sameIdContext).2
        = some (Err.error "exit status 1") ∧
      (RunContext.Executor plainDeps sameIdContext sameIdContext).1.StepResults.lookup "a"
        = some { Success := false, Outputs := ∅ } :=
  ⟨by decide, by decide, by decide, rfl, by decide, by decide, by decide, rfl⟩

end Runner
